import Mathlib

/-!
Verification of the multi-headed attention module
(`onmt/modules/multi_headed_attn.py`) against its specification.

The module is shallow-embedded over lists of real numbers:

* a feature vector is a `List ℝ`;
* a sequence of vectors (one tensor slice `(length, dim)`) is a `List (List ℝ)`;
* a per-head tensor `(heads, length, dim_per_head)` is a `List (List (List ℝ))`;
* the batch dimension is an outer `List` (torch operations used by the module
  act pointwise in the batch);
* float upcasts (`scores.float()`, `.to(query.dtype)`) are identities over ℝ;
* dropout is modelled at probability 0 / evaluation mode, where `nn.Dropout`
  is the identity (all the verified properties are stated at dropout 0);
* fallible tensor operations (the mask `expand` call) return `Except`.
-/

namespace MHA

abbrev Vec := List ℝ
abbrev Seq := List Vec           -- (length, dim)
abbrev HeadSeq := List Seq       -- (heads, length, dim_per_head)
abbrev HeadScores := List (List (List ℝ))  -- (heads, q_len, k_len)

/-- Dot product of two feature vectors (`torch.matmul` on matching rows). -/
def dot (a b : Vec) : ℝ := (List.zipWith (· * ·) a b).sum

/-- Pointwise sum of two vectors. -/
def addVecP (a b : Vec) : Vec := List.zipWith (· + ·) a b

/-- Scale a vector by a constant. -/
def scaleVec (c : ℝ) (v : Vec) : Vec := v.map (c * ·)

/-- The all-zero vector of a given width. -/
def vecZero (n : ℕ) : Vec := List.replicate n 0

/-- `Σ_j w_j • vs_j` over a width-`dim` vector family: one output row of a
`weights · value` matrix product. -/
def weightedSum (dim : ℕ) (w : List ℝ) (vs : Seq) : Vec :=
  (List.zipWith scaleVec w vs).foldr addVecP (vecZero dim)

/-- `map` with the position index passed to the function, starting at `n`. -/
def idxMapFrom (f : ℕ → α → β) : ℕ → List α → List β
  | _, [] => []
  | n, a :: as => f n a :: idxMapFrom f (n + 1) as

/-- `map` with the position index passed to the function. -/
def idxMap (f : ℕ → α → β) (l : List α) : List β := idxMapFrom f 0 l

/-- An `nn.Linear` layer: `weight` is `(out_features, in_features)`;
`bias` models the optional additive bias (`add_qkvbias=False` is the zero
vector, which leaves the affine map linear). -/
structure LinearLayer where
  weight : List Vec
  bias : Vec

/-- `y = W x + b` on a single feature vector. -/
def matVec (W : List Vec) (v : Vec) : Vec := W.map (fun row => dot row v)

/-- Apply an `nn.Linear` to every position of a sequence. -/
def applyLinear (L : LinearLayer) (x : Seq) : Seq :=
  x.map (fun v => addVecP (matVec L.weight v) L.bias)

/-- The output width of a linear layer as realized on any input row. -/
def projLen (L : LinearLayer) : ℕ := min L.weight.length L.bias.length

/-- Contiguous slice `v[start : start+len]` of a feature vector. -/
def vslice (v : Vec) (start len : ℕ) : Vec := (v.drop start).take len

/-- `shape` helper (source lines 86-92): `view` to `(length, heads,
dim_per_head)` followed by `transpose(1, 2)`.  Element `(h, t)` of the result
is slice `h` of row `t`; the head count is inferred from the row width the way
`view(..., -1, dim_per_head)` infers it. -/
def headSplit (x : Seq) (heads dph : ℕ) : HeadSeq :=
  (List.range heads).map (fun h => x.map (fun v => vslice v (h * dph) dph))

def shape (x : Seq) (dph : ℕ) : HeadSeq :=
  headSplit x ((x.headD []).length / dph) dph

/-- `unshape` (source lines 95-101): transpose heads and length back and
flatten the per-head slices into one row per position. -/
def unshape (x : HeadSeq) : Seq :=
  (List.range (x.headD []).length).map
    (fun t => (x.map (fun hs => hs.getD t [])).flatten)

/-! ### Rotary embeddings (source lines 18-35)

`rotaryembeddings` precomputes `polar(1, p * inv_freq_i)` for positions
`p < maxseqlen = 4096`; it is modelled as the function below of the absolute
position (the source raises a shape error past the end of the table, so the
verified statements restrict positions to the table's range). -/

noncomputable def invFreq (dim i : ℕ) : ℝ :=
  1 / (10000 : ℝ) ^ ((2 * (i : ℝ)) / (dim : ℝ))

noncomputable def ropePair (dim p i : ℕ) : ℝ × ℝ :=
  (Real.cos ((p : ℝ) * invFreq dim i), Real.sin ((p : ℝ) * invFreq dim i))

/-- Complex multiplication on real pairs (`view_as_complex` arithmetic). -/
def cmul (a b : ℝ × ℝ) : ℝ × ℝ :=
  (a.1 * b.1 - a.2 * b.2, a.1 * b.2 + a.2 * b.1)

/-- Reinterpret adjacent feature pairs as complex numbers
(`reshape(..., -1, 2)` + `view_as_complex`). -/
def pairs : Vec → List (ℝ × ℝ)
  | a :: b :: rest => (a, b) :: pairs rest
  | _ => []

/-- `view_as_real(...).flatten`. -/
def unpairs (l : List (ℝ × ℝ)) : Vec := (l.map (fun p => [p.1, p.2])).flatten

/-- Rotate one per-head feature vector sitting at absolute position `p`. -/
noncomputable def rotateVec (dim p : ℕ) (v : Vec) : Vec :=
  unpairs (idxMap (fun i a => cmul a (ropePair dim p i)) (pairs v))

/-- `apply_rotary_emb` over a shaped `(heads, length, dim_per_head)` tensor:
every position `t` of every head is rotated by the table entry for absolute
position `start + t` (the source transposes to `(length, heads, ...)`,
broadcasts the rope slice over heads, and transposes back). -/
noncomputable def applyRotary (dim start : ℕ) (x : HeadSeq) : HeadSeq :=
  x.map (fun hs => idxMap (fun p v => rotateVec dim (start + p) v) hs)

/-! ### Relative positions (source lines 42-80) -/

/-- `clamp(d, -M, M) + M`, the shifted clipped distance used as an embedding
index. -/
def clipShift (d : ℤ) (M : ℕ) : ℕ :=
  (min (max d (-(M : ℤ))) (M : ℤ) + M).toNat

/-- `gen_relative_positions` (source lines 61-80): with `cache = True` a
single row `arange(-length+1, 1)`, otherwise the full `(length, length)`
distance matrix `j - i`; both clipped and shifted to be non-negative. -/
def genRelativePositions (length M : ℕ) (cache : Bool) : List (List ℕ) :=
  if cache then
    [(List.range length).map
      (fun (j : ℕ) => clipShift ((j : ℤ) - ((length : ℤ) - 1)) M)]
  else
    (List.range length).map (fun (i : ℕ) =>
      (List.range length).map (fun (j : ℕ) => clipShift ((j : ℤ) - (i : ℤ)) M))

/-- Embedding lookup over an index matrix (`nn.Embedding` on the output of
`gen_relative_positions`). -/
def relEmbed (table : List Vec) (idx : List (List ℕ)) : List Seq :=
  idx.map (fun row => row.map (fun i => table.getD i []))

/-- `relative_matmul(x, z, transpose=True)` contribution to the scores:
entry `(h, t, j)` is `x[h][t] · z[t][j]`. -/
def relScores (x : HeadSeq) (z : List Seq) : HeadScores :=
  x.map (fun hs => idxMap (fun t qv => (z.getD t []).map (fun zv => dot qv zv)) hs)

/-- `relative_matmul(x, z, transpose=False)` contribution to the context:
row `(h, t)` is `Σ_j x[h][t][j] • z[t][j]`. -/
def relContext (dim : ℕ) (x : HeadScores) (z : List Seq) : HeadSeq :=
  x.map (fun rows => idxMap (fun t row => weightedSum dim row (z.getD t [])) rows)

/-- Elementwise `scores.add_` of two `(heads, q_len, k_len)` tensors. -/
def addScores (a b : HeadScores) : HeadScores :=
  List.zipWith (List.zipWith (List.zipWith (· + ·))) a b

/-- Elementwise add of two `(heads, length, dim)` tensors
(`context_original.add_`). -/
def addHeadSeq (a b : HeadSeq) : HeadSeq :=
  List.zipWith (List.zipWith addVecP) a b

/-! ### ALiBi positional bias

The class `AlibiPositionalBias` lives in `onmt/modules/alibi_position_bias.py`,
which is not part of the repository slice under verification; only this import
site is.  Modelled from the spec: "adds to raw attention scores, per head, a
bias equal to a fixed negative slope (precomputed, geometrically spaced across
heads) times the (query-position - key-position) distance". -/

/-- Modelled from the spec: the per-head geometrically spaced negative slopes
of ALiBi (`AlibiPositionalBias(head_count)`); the exact values play no role in
the verified properties. -/
noncomputable def alibiSlopes (headCount : ℕ) : List ℝ :=
  (List.range headCount).map
    (fun h => -(2 : ℝ) ^ (-(8 * ((h : ℝ) + 1) / (headCount : ℝ))))

/-- Modelled from the spec: `self.alibi(scores)` adds `slope_h * (i - j)` to
score entry `(h, i, j)`. -/
def alibiAdd (slopes : List ℝ) (s : HeadScores) : HeadScores :=
  idxMap (fun h rows =>
    idxMap (fun i row =>
      idxMap (fun j x => x + slopes.getD h 0 * ((i : ℝ) - (j : ℝ))) row) rows) s

/-! ### Multi-query head expansion (source lines 300-304 and 336-340)

`kv.view(b, -1, 1, len, dph).repeat(1, 1, r, 1, 1).view(b, h_q, len, dph)`:
on the head axis this inserts a unit axis after the kv heads, tiles it `r`
times and flattens, so each kv head appears `r` consecutive times. -/

def mqExpand (r : ℕ) (kv : HeadSeq) : HeadSeq :=
  (kv.map (fun h => List.replicate r h)).flatten

/-- The naive broadcast the spec's expansion law refers to: head `i` of the
materialized tensor is kv head `i / r`. -/
def naiveReplicate (r : ℕ) (kv : HeadSeq) : HeadSeq :=
  (List.range (kv.length * r)).map (fun i => kv.getD (i / r) [])

/-! ### Softmax, mask, dropout -/

/-- Row softmax (`nn.Softmax(dim=-1)`), over exact reals. -/
noncomputable def softmaxRow (r : List ℝ) : List ℝ :=
  r.map (fun x => Real.exp x / (r.map Real.exp).sum)

noncomputable def softmaxScores (s : HeadScores) : HeadScores :=
  s.map (fun rows => rows.map softmaxRow)

/-- `scores.masked_fill(mask, -1e18)` under an already-expanded
`(heads, q_len, k_len)` boolean mask. -/
def maskedFill (s : HeadScores) (mask : List (List (List Bool))) : HeadScores :=
  List.zipWith (List.zipWith (List.zipWith (fun x b => if b then -(1e18 : ℝ) else x)))
    s mask

/-- The mask argument of `forward`: either a 3-D `(batch, q_len, k_len)`
tensor or a 4-D `(batch, heads_or_1, q_len, k_len)` tensor. -/
inductive MaskArg where
  | m3 (m : List (List (List Bool)))
  | m4 (m : List (List (List (List Bool))))

/-- `mask.expand(-1, head_count, -1, -1)` (source line 329).  torch `expand`
aligns sizes from the trailing dimension; for a 3-D mask the leading `-1`
would create a new dimension, which `expand` rejects, so the call raises.  For
a 4-D mask, dimension 1 must be of size 1 (broadcast to `head_count`) or
already `head_count`. -/
def expandMask (m : MaskArg) (headCount : ℕ) :
    Option (List (List (List (List Bool)))) :=
  match m with
  | .m3 _ => none
  | .m4 mm =>
    if mm.all (fun be => be.length == 1 || be.length == headCount) then
      some (mm.map (fun be =>
        if be.length == 1 then List.replicate headCount (be.headD []) else be))
    else none

/-! ### The module and its constructor -/

/-- `attn_type`; the source keeps a string (`"self"` / `"context"`). Every
cache-enabled call requires one of the two (any other value falls through the
cache branch unprojected and the source then fails with an index error), and
training-mode calls never read it. -/
inductive AttnKind where
  | selfAttn
  | contextAttn
deriving DecidableEq

/-- The constructed `MultiHeadedAttention` module: configuration fixed at
construction plus the projection parameters.  `dim_per_head` is
`model_dim // head_count`; the rotary table and the ALiBi slopes are
deterministic functions of `dim_per_head` resp. `head_count` and are not
stored.  `relTable` is `relative_positions_embeddings` (present exactly when
`max_relative_positions > 0`). -/
structure Module where
  headCount : ℕ
  dimPerHead : ℕ
  linearKeys : LinearLayer
  linearValues : LinearLayer
  linearQuery : LinearLayer
  finalLinear : LinearLayer
  maxRelativePositions : ℤ
  attnType : AttnKind
  relTable : Option (List Vec)

/-- The learnable parameters supplied to construction (the source draws them
via `skip_init` / `nn.Embedding`; they are explicit inputs here). -/
structure Params where
  wk : List Vec
  wv : List Vec
  wq : List Vec
  wo : List Vec
  bk : Vec
  bv : Vec
  bq : Vec
  bo : Vec
  relWeights : List Vec

/-- `MultiHeadedAttention.__init__` (source lines 147-202).  The only
validation is `assert model_dim % head_count == 0` (plus the
`ZeroDivisionError` of `model_dim % 0`); `num_kv` is accepted but never read,
and any `max_relative_positions ≤ 0` other than `-1` / `-2` silently selects
no positional mechanism. -/
def init (headCount modelDim : ℕ) (maxRelativePositions : ℤ)
    (attnType : AttnKind) (addQkvBias : Bool) (numKv : ℕ) (p : Params) :
    Except String Module :=
  if headCount = 0 then .error "ZeroDivisionError: model_dim % head_count"
  else if modelDim % headCount ≠ 0 then .error "AssertionError"
  else
    .ok
      { headCount := headCount
        dimPerHead := modelDim / headCount
        linearKeys := ⟨p.wk, if addQkvBias then p.bk else vecZero modelDim⟩
        linearValues := ⟨p.wv, if addQkvBias then p.bv else vecZero modelDim⟩
        linearQuery := ⟨p.wq, if addQkvBias then p.bq else vecZero modelDim⟩
        finalLinear := ⟨p.wo, if addQkvBias then p.bo else vecZero modelDim⟩
        maxRelativePositions := maxRelativePositions
        attnType := attnType
        relTable :=
          if maxRelativePositions > 0 then
            some (p.relWeights.take (2 * maxRelativePositions.toNat + 1))
          else none }

/-- The decode cache `self.layer_cache`: the enabled flag and the cached
`keys` / `values` tensors, each `(batch, heads, length, dim_per_head)`
(initially the empty tensor `torch.tensor([])`). -/
structure LayerCache where
  enabled : Bool
  keys : List HeadSeq
  values : List HeadSeq
deriving Inhabited

/-- `Tensor.numel()` of a cached tensor. -/
def numel (t : List HeadSeq) : ℕ :=
  (t.map (fun b => (b.map (fun h => (h.map List.length).sum)).sum)).sum

/-- `torch.cat((cached, new), dim=2)`: append along the length axis,
pointwise in batch and heads. -/
def catLen (old new : List HeadSeq) : List HeadSeq :=
  List.zipWith (List.zipWith (· ++ ·)) old new

/-- Project-and-shape one batch element through one linear layer. -/
def projShape (m : Module) (L : LinearLayer) (x : Seq) : HeadSeq :=
  shape (applyLinear L x) m.dimPerHead

/-- Stage 1 of `forward` (source lines 235-297): projection, shaping, rotary
rotation and the cache logic, producing the shaped
`(batch, heads, length, dim_per_head)` query/key/value and the new cache. -/
noncomputable def projectStage (m : Module) (c : LayerCache)
    (key value query : List Seq) (step : ℕ) :
    (List HeadSeq × List HeadSeq × List HeadSeq) × LayerCache :=
  if c.enabled then
    match m.attnType with
    | .selfAttn =>
      let q := query.map (projShape m m.linearQuery)
      let k := query.map (projShape m m.linearKeys)
      let v := query.map (projShape m m.linearValues)
      let qk :=
        if m.maxRelativePositions = -1 then
          (q.map (applyRotary m.dimPerHead step), k.map (applyRotary m.dimPerHead step))
        else (q, k)
      let k := if numel c.keys ≠ 0 then catLen c.keys qk.2 else qk.2
      let v := if numel c.values ≠ 0 then catLen c.values v else v
      ((qk.1, k, v), { c with keys := k, values := v })
    | .contextAttn =>
      let q := query.map (projShape m m.linearQuery)
      let kv :=
        if numel c.keys = 0 then
          (key.map (projShape m m.linearKeys), value.map (projShape m m.linearValues))
        else (c.keys, c.values)
      ((q, kv.1, kv.2), { c with keys := kv.1, values := kv.2 })
  else
    let k := key.map (projShape m m.linearKeys)
    let v := value.map (projShape m m.linearValues)
    let q := query.map (projShape m m.linearQuery)
    let qk :=
      if m.maxRelativePositions = -1 then
        (q.map (applyRotary m.dimPerHead 0), k.map (applyRotary m.dimPerHead 0))
      else (q, k)
    ((qk.1, qk.2, v), c)

/-- `query /= math.sqrt(self.dim_per_head)` (source line 299). -/
noncomputable def scaledQ (m : Module) (query : HeadSeq) : HeadSeq :=
  query.map (fun hs => hs.map (fun v =>
    v.map (fun x => x / Real.sqrt ((m.dimPerHead : ℝ)))))

/-- `key.size(2)`, the (uniform) per-head key length. -/
def keyLenOf (key : HeadSeq) : ℕ := (key.headD []).length

/-- The relative key/value embeddings `relations_keys = relations_values`
(source lines 308-320 and 343-345), present exactly when
`relative_positions_embeddings` is. -/
noncomputable def relZOf (m : Module) (cacheFlag : Bool) (keyLen : ℕ) :
    Option (List Seq) :=
  m.relTable.map (fun table =>
    relEmbed table
      (genRelativePositions keyLen m.maxRelativePositions.toNat cacheFlag))

/-- Source lines 298-325: scaled scores with the positional contribution
(relative-position bias or ALiBi) added, before the mask and the softmax;
this is the tensor after `scores = scores.float()`, which over ℝ is the
identity.  `cacheFlag` is `self.layer_cache[0]`. -/
noncomputable def rawScores (m : Module) (cacheFlag : Bool)
    (query key : HeadSeq) : HeadScores :=
  let q := scaledQ m query
  let k := mqExpand (q.length / key.length) key
  let scores := List.zipWith (fun qh kh => qh.map (fun qv => kh.map (dot qv))) q k
  match relZOf m cacheFlag (keyLenOf k) with
  | some z => addScores scores (relScores q z)
  | none =>
    if m.maxRelativePositions = -2 then alibiAdd (alibiSlopes m.headCount) scores
    else scores

/-- Source lines 327-331: the scores after the (optional) mask fill, the
tensor fed to the softmax. -/
noncomputable def maskedScores (m : Module) (cacheFlag : Bool)
    (query key : HeadSeq) (mask : Option (List (List (List Bool)))) : HeadScores :=
  match mask with
  | some mk => maskedFill (rawScores m cacheFlag query key) mk
  | none => rawScores m cacheFlag query key

/-- Stage 2 of `forward` (source lines 298-352) on one batch element: score
computation, positional bias, optional mask fill, softmax, context, and the
output projection.  The relative-position index tensor is a function of the
uniform key length, computed here from this element's key. -/
noncomputable def attnCoreElem (m : Module) (cacheFlag : Bool)
    (query key value : HeadSeq) (mask : Option (List (List (List Bool)))) :
    Seq × HeadScores :=
  let attn := softmaxScores (maskedScores m cacheFlag query key mask)
  let dropAttn := attn
  let qlen := (scaledQ m query).length
  let value := mqExpand (qlen / value.length) value
  let context := List.zipWith
    (fun ah vh => ah.map (fun row => weightedSum m.dimPerHead row vh)) dropAttn value
  let context :=
    match relZOf m cacheFlag (keyLenOf (mqExpand (qlen / key.length) key)) with
    | some z => addHeadSeq context (relContext m.dimPerHead dropAttn z)
    | none => context
  (applyLinear m.finalLinear (unshape context), attn)

/-- `MultiHeadedAttention.forward` (source lines 208-352), batched: returns
the output context `(batch, q_len, model_dim)`, the post-softmax attention
weights `(batch, heads, q_len, k_len)` and the cache left behind. -/
noncomputable def forward (m : Module) (c : LayerCache)
    (key value query : List Seq) (mask : Option MaskArg) (step : ℕ) :
    Except String (List Seq × List HeadScores × LayerCache) :=
  let s := projectStage m c key value query step
  let q := s.1.1
  let k := s.1.2.1
  let v := s.1.2.2
  match mask with
  | none =>
    let outs := List.zipWith (fun qe kv =>
      attnCoreElem m c.enabled qe kv.1 kv.2 none) q (List.zip k v)
    .ok (outs.map (·.1), outs.map (·.2), s.2)
  | some marg =>
    match expandMask marg m.headCount with
    | none => .error "RuntimeError: expand"
    | some m4 =>
      let outs := List.zipWith (fun qe kvm =>
        attnCoreElem m c.enabled qe kvm.1.1 kvm.1.2 (some kvm.2))
        q (List.zip (List.zip k v) m4)
      .ok (outs.map (·.1), outs.map (·.2), s.2)

/-! ### Decoding sessions -/

/-- The cache left behind by a forward call.  A call that raises keeps the
cache it had (for a cache-enabled context-attention reuse step the source
assigns the cache its own value before any later error can be raised, so the
cache is unchanged either way). -/
noncomputable def nextCache (m : Module) (c : LayerCache)
    (key value query : List Seq) (mask : Option MaskArg) (step : ℕ) :
    LayerCache :=
  match forward m c key value query mask step with
  | .ok r => r.2.2
  | .error _ => c

/-- One batched argument tuple for a `forward` call. -/
structure CallArgs where
  key : List Seq
  value : List Seq
  query : List Seq
  mask : Option MaskArg
  step : ℕ

/-- Run a sequence of forward calls for their cache effect. -/
noncomputable def runCalls (m : Module) (c : LayerCache)
    (calls : List CallArgs) : LayerCache :=
  calls.foldl (fun c a => nextCache m c a.key a.value a.query a.mask a.step) c

/-- Training-style run: one forward call over the full sequence `x`
(key = value = query = `x`, batch of one, no mask, cache disabled); the
returned context `(length, model_dim)`. -/
noncomputable def trainingOutput (m : Module) (x : Seq) : Seq :=
  match forward m ⟨false, [], []⟩ [x] [x] [x] none 0 with
  | .ok r => r.1.headD []
  | .error _ => []

/-- The cache after decode steps `0, …, t-1`, each a cache-enabled
self-attention call on the single position `x[i]` with `step = i`, starting
from the empty decode cache. -/
noncomputable def decodeCacheUpto (m : Module) (x : Seq) : ℕ → LayerCache
  | 0 => ⟨true, [], []⟩
  | t + 1 =>
    nextCache m (decodeCacheUpto m x t)
      [[x.getD t []]] [[x.getD t []]] [[x.getD t []]] none t

/-- The context `(1, model_dim)` returned by decode step `t` (the `t+1`-st
length-1 call, with `step = t`), after the cache has been fed steps
`0, …, t-1`. -/
noncomputable def decodeStepOutput (m : Module) (x : Seq) (t : ℕ) : Seq :=
  match forward m (decodeCacheUpto m x t)
      [[x.getD t []]] [[x.getD t []]] [[x.getD t []]] none t with
  | .ok r => r.1.headD []
  | .error _ => []

/-! ## Concrete instances used by witnesses and counterexamples -/

/-- Concrete 1-head, 1-dimensional parameters (weights `1`, biases `0`,
a 3-row zero relative-embedding table). -/
def pW : Params :=
  ⟨[[1]], [[1]], [[1]], [[1]], [0], [0], [0], [0], [[0], [0], [0]]⟩

/-- A concrete 1-head module, `model_dim = 1`, no positional mechanism,
identity-like projections. -/
def mW : Module :=
  { headCount := 1
    dimPerHead := 1
    linearKeys := ⟨[[1]], [0]⟩
    linearValues := ⟨[[1]], [0]⟩
    linearQuery := ⟨[[1]], [0]⟩
    finalLinear := ⟨[[1]], [0]⟩
    maxRelativePositions := 0
    attnType := .selfAttn
    relTable := none }

/-- `mW` with a zero query projection and relative positions
(`max_relative_positions = 1`, zero embedding table): every raw score is 0. -/
def mRel : Module :=
  { headCount := 1
    dimPerHead := 1
    linearKeys := ⟨[[1]], [0]⟩
    linearValues := ⟨[[1]], [0]⟩
    linearQuery := ⟨[[0]], [0]⟩
    finalLinear := ⟨[[1]], [0]⟩
    maxRelativePositions := 1
    attnType := .selfAttn
    relTable := some [[0], [0], [0]] }

/-- `mW` set up for context attention. -/
def mCtx : Module :=
  { mW with attnType := .contextAttn }

/-! ## Claim theorems -/

/-- C7: for every configuration whose positional-encoding mode is not rotary
(`max_relative_positions ≠ -1`), two forward calls identical except for `step`
return the same context, attention weights and cache: `step` influences the
output only in rotary mode. -/
theorem step_only_affects_rotary (m : Module) (c : LayerCache)
    (key value query : List Seq) (mask : Option MaskArg) (s₁ s₂ : ℕ)
    (h : m.maxRelativePositions ≠ -1) :
    forward m c key value query mask s₁ = forward m c key value query mask s₂ := by
  have hp : projectStage m c key value query s₁ =
      projectStage m c key value query s₂ := by
    unfold projectStage
    simp only [h, if_false]
  unfold forward
  rw [hp]

/-- Witness for C7 at a concrete non-rotary configuration and steps 0, 1. -/
theorem step_only_affects_rotary_witness :
    mW.maxRelativePositions ≠ -1 ∧
      forward mW ⟨false, [], []⟩ [[[1]]] [[[1]]] [[[1]]] none 0 =
        forward mW ⟨false, [], []⟩ [[[1]]] [[[1]]] [[[1]]] none 1 :=
  ⟨by decide,
    step_only_affects_rotary mW ⟨false, [], []⟩ [[[1]]] [[[1]]] [[[1]]] none 0 1
      (by decide)⟩

/-- C10: in decode self-attention mode (cache enabled, `attn_type = "self"`)
the results and the updated cache are independent of the `key` and `value`
arguments: the projections are computed from the `query` argument. -/
theorem decode_self_ignores_key_value (m : Module) (c : LayerCache)
    (k₁ v₁ k₂ v₂ q : List Seq) (mask : Option MaskArg) (s : ℕ)
    (hen : c.enabled = true) (hattn : m.attnType = .selfAttn) :
    forward m c k₁ v₁ q mask s = forward m c k₂ v₂ q mask s := by
  have hp : projectStage m c k₁ v₁ q s = projectStage m c k₂ v₂ q s := by
    unfold projectStage
    simp only [hen, hattn, if_true]
  unfold forward
  rw [hp]

/-- Witness for C10: a concrete decode self-attention call with two different
key/value arguments. -/
theorem decode_self_ignores_key_value_witness :
    (true = true ∧ mW.attnType = AttnKind.selfAttn) ∧
      forward mW ⟨true, [], []⟩ [[[5]]] [[[6]]] [[[1]]] none 0 =
        forward mW ⟨true, [], []⟩ [[[7]]] [[[8]]] [[[1]]] none 0 :=
  ⟨⟨rfl, rfl⟩,
    decode_self_ignores_key_value mW ⟨true, [], []⟩ [[[5]]] [[[6]]] [[[7]]] [[[8]]]
      [[[1]]] none 0 rfl rfl⟩

/-- C5 counterexample: `head_count = 8` with `kv_head_count = 3` (which does
not divide 8) is accepted at construction time — `num_kv` is never checked
(nor used), so the second divisibility violation of the claim is not
rejected. -/
theorem init_kv_head_count_unchecked :
    (init 8 16 0 .selfAttn false 3 pW).isOk = true := by
  rfl

/-- C5 (amended): construction fails exactly when `model_dim` is not
divisible by `head_count` (including the `head_count = 0` division error);
the key/value head count `num_kv` is accepted unchecked, and the constructed
module does not depend on it.  In particular `model_dim = 10, head_count = 3`
fails, but `head_count = 8, kv_head_count = 3` does not. -/
theorem init_validates_only_model_dim (hc md : ℕ) (mrp : ℤ) (t : AttnKind)
    (b : Bool) (nkv nkv' : ℕ) (p : Params) :
    ((init hc md mrp t b nkv p).isOk = true ↔ hc ≠ 0 ∧ md % hc = 0) ∧
      init hc md mrp t b nkv p = init hc md mrp t b nkv' p := by
  constructor
  · unfold init
    by_cases h0 : hc = 0
    · simp [h0, Except.isOk, Except.toBool]
    · by_cases h1 : md % hc = 0
      · simp [h0, h1, Except.isOk, Except.toBool]
      · simp [h0, h1, Except.isOk, Except.toBool]
  · rfl

/-- C8 counterexample: `max_relative_positions = -3` (outside the recognized
set) is accepted at construction time instead of failing. -/
theorem init_accepts_mrp_minus_three :
    (init 2 4 (-3) .selfAttn false 0 pW).isOk = true := by
  rfl

/-- C8 (amended): an unrecognized `max_relative_positions` such as `-3` is
silently accepted whenever the divisibility check passes; the constructed
module keeps `max_relative_positions = -3`, builds no relative-embedding
table, and (since `-3 ≠ -1` and `-3 ≠ -2`) triggers neither the rotary nor
the ALiBi machinery: the "none" mode is silently selected. -/
theorem mrp_minus_three_selects_none (hc md : ℕ) (t : AttnKind) (b : Bool)
    (nkv : ℕ) (p : Params) (h0 : hc ≠ 0) (h1 : md % hc = 0) :
    ∃ m, init hc md (-3) t b nkv p = .ok m ∧ m.relTable = none ∧
      m.maxRelativePositions = -3 := by
  unfold init
  simp only [h0, if_false, h1, ite_not, if_true]
  exact ⟨_, rfl, rfl, rfl⟩

/-- Witness for C8 at `head_count = 2`, `model_dim = 4`. -/
theorem mrp_minus_three_selects_none_witness :
    ((2 : ℕ) ≠ 0 ∧ (4 : ℕ) % 2 = 0) ∧
      ∃ m, init 2 4 (-3) .selfAttn false 0 pW = .ok m ∧ m.relTable = none ∧
        m.maxRelativePositions = -3 :=
  ⟨⟨by decide, by decide⟩,
    mrp_minus_three_selects_none 2 4 .selfAttn false 0 pW (by decide) (by decide)⟩

/-- A cache-enabled context-attention call on a populated cache writes the
cache back unchanged and therefore leaves it untouched, whatever the
arguments and whether or not the call raises on its mask. -/
theorem nextCache_context_frozen (m : Module) (c : LayerCache)
    (key value query : List Seq) (mask : Option MaskArg) (s : ℕ)
    (hattn : m.attnType = .contextAttn) (hen : c.enabled = true)
    (hne : numel c.keys ≠ 0) :
    nextCache m c key value query mask s = c := by
  have hp : (projectStage m c key value query s).2 = c := by
    unfold projectStage
    simp only [hen, if_true, hattn, hne, if_neg, if_false]
    rw [← hen]
  unfold nextCache forward
  cases mask with
  | none => simp only [hp]
  | some marg =>
    cases hem : expandMask marg m.headCount with
    | none => simp only [hem]
    | some m4 => simp only [hem, hp]

/-- C4: for `attn_type = "context"` with the cache enabled, once the cache
has been populated (first decode step), every subsequent forward call of the
session leaves the cached keys and values identical — the whole cache, keys
and values, is returned untouched by every further call. -/
theorem context_cache_frozen (m : Module) (c : LayerCache) (calls : List CallArgs)
    (hattn : m.attnType = .contextAttn) (hen : c.enabled = true)
    (hne : numel c.keys ≠ 0) :
    runCalls m c calls = c := by
  induction calls with
  | nil => rfl
  | cons a rest ih =>
    unfold runCalls
    simp only [List.foldl_cons]
    rw [nextCache_context_frozen m c a.key a.value a.query a.mask a.step hattn hen hne]
    exact ih

/-- A concrete populated context-attention decode cache. -/
def cCtx : LayerCache := ⟨true, [[[[1]]]], [[[[2]]]]⟩

/-- Witness for C4: a concrete populated cache survives a further call. -/
theorem context_cache_frozen_witness :
    (mCtx.attnType = AttnKind.contextAttn ∧ cCtx.enabled = true ∧
        numel cCtx.keys ≠ 0) ∧
      runCalls mCtx cCtx [⟨[[[3]]], [[[4]]], [[[5]]], none, 1⟩] = cCtx :=
  ⟨⟨rfl, rfl, by decide⟩,
    context_cache_frozen mCtx cCtx [⟨[[[3]]], [[[4]]], [[[5]]], none, 1⟩]
      rfl rfl (by decide)⟩

/-- Tiling a unit axis once and flattening is the identity on the head
axis. -/
theorem mqExpand_one (kv : HeadSeq) : mqExpand 1 kv = kv := by
  induction kv with
  | nil => rfl
  | cons h t ih =>
    simp only [mqExpand, List.map_cons, List.flatten_cons, List.replicate] at *
    simp [ih]

/-- The `view/repeat/view` expansion equals the naive index-based broadcast:
head `i` of the result is kv head `i / r`. -/
theorem mqExpand_eq_naiveReplicate (r : ℕ) (hr : 0 < r) (kv : HeadSeq) :
    mqExpand r kv = naiveReplicate r kv := by
  induction kv with
  | nil => simp [mqExpand, naiveReplicate]
  | cons h t ih =>
    have hsplit : List.range ((h :: t).length * r) =
        List.range r ++ (List.range (t.length * r)).map (r + ·) := by
      rw [List.length_cons, Nat.succ_mul, Nat.add_comm, List.range_add]
    unfold naiveReplicate
    rw [hsplit, List.map_append]
    have h1 : (List.range r).map (fun i => (h :: t).getD (i / r) []) =
        List.replicate r h := by
      refine List.eq_replicate_iff.mpr ⟨by simp, ?_⟩
      intro b hb
      rcases List.mem_map.mp hb with ⟨i, hi, rfl⟩
      rw [Nat.div_eq_of_lt (List.mem_range.mp hi)]
      rfl
    have h2 : ((List.range (t.length * r)).map (r + ·)).map
          (fun i => (h :: t).getD (i / r) []) =
        (List.range (t.length * r)).map (fun i => t.getD (i / r) []) := by
      rw [List.map_map]
      apply List.map_congr_left
      intro i _
      have : (r + i) / r = i / r + 1 := by
        rw [Nat.add_comm, Nat.add_div_right i hr]
      simp [Function.comp, this]
    rw [h1, h2]
    have : (List.range (t.length * r)).map (fun i => t.getD (i / r) []) =
        naiveReplicate r t := rfl
    rw [this, ← ih]
    simp [mqExpand]

theorem naiveReplicate_length (r : ℕ) (kv : HeadSeq) :
    (naiveReplicate r kv).length = kv.length * r := by
  simp [naiveReplicate]

theorem scaledQ_length (m : Module) (q : HeadSeq) :
    (scaledQ m q).length = q.length := by
  simp [scaledQ]

/-- C2: the pair `(context, attention weights)` computed by the post-shape
part of `forward` (source lines 298-352, where the multi-query expansion of
lines 300-304 and 336-340 lives) is unchanged if the key and value head
tensors are first explicitly materialized with each of their `k` heads
replicated `r = q.length / k.length` times along the head axis, and the rest
of the computation is run untouched: the expansion is observationally the
naive broadcast.  (In the repository slice the projections in `forward`
always produce equal head counts — `num_kv` is ignored — so the ratio is
exercised here with the shaped tensors the cited lines actually consume.) -/
theorem multi_query_expansion_transparent (m : Module) (cacheFlag : Bool)
    (q k v : HeadSeq) (mask : Option (List (List (List Bool)))) (r : ℕ)
    (hr : 0 < r) (hk0 : k.length ≠ 0) (hq : q.length = r * k.length)
    (hv : v.length = k.length) :
    attnCoreElem m cacheFlag q k v mask =
      attnCoreElem m cacheFlag q (naiveReplicate r k) (naiveReplicate r v) mask := by
  have hkpos : 0 < k.length := Nat.pos_of_ne_zero hk0
  have hratk : q.length / k.length = r := by
    rw [hq, Nat.mul_div_cancel r hkpos]
  have hratv : q.length / v.length = r := by rw [hv, hratk]
  have hratk' : q.length / (naiveReplicate r k).length = 1 := by
    rw [naiveReplicate_length, hq, Nat.mul_comm r k.length,
      Nat.div_self (Nat.mul_pos hkpos hr)]
  have hratv' : q.length / (naiveReplicate r v).length = 1 := by
    rw [naiveReplicate_length, hv, hq, Nat.mul_comm r k.length,
      Nat.div_self (Nat.mul_pos hkpos hr)]
  have hexpk : mqExpand (q.length / k.length) k =
      mqExpand (q.length / (naiveReplicate r k).length) (naiveReplicate r k) := by
    rw [hratk, hratk', mqExpand_one, mqExpand_eq_naiveReplicate r hr]
  have hexpv : mqExpand (q.length / v.length) v =
      mqExpand (q.length / (naiveReplicate r v).length) (naiveReplicate r v) := by
    rw [hratv, hratv', mqExpand_one, mqExpand_eq_naiveReplicate r hr]
  have hraw : rawScores m cacheFlag q k =
      rawScores m cacheFlag q (naiveReplicate r k) := by
    simp only [rawScores]
    rw [scaledQ_length, hexpk]
  have hmasked : maskedScores m cacheFlag q k mask =
      maskedScores m cacheFlag q (naiveReplicate r k) mask := by
    unfold maskedScores
    cases mask with
    | none => exact hraw
    | some mk => rw [hraw]
  simp only [attnCoreElem]
  rw [hmasked, scaledQ_length, hexpv, hexpk]

/-- Concrete shaped tensors for the C2 witness: 2 query heads, 1 kv head. -/
def qC2 : HeadSeq := [[[1]], [[2]]]

def kC2 : HeadSeq := [[[3]]]

def vC2 : HeadSeq := [[[4]]]

/-- Witness for C2 with `r = 2`: 2 query heads over 1 key/value head. -/
theorem multi_query_expansion_transparent_witness :
    (0 < 2 ∧ kC2.length ≠ 0 ∧ qC2.length = 2 * kC2.length ∧
        vC2.length = kC2.length) ∧
      attnCoreElem mW false qC2 kC2 vC2 none =
        attnCoreElem mW false qC2 (naiveReplicate 2 kC2)
          (naiveReplicate 2 vC2) none :=
  ⟨⟨by decide, by decide, by decide, by decide⟩,
    multi_query_expansion_transparent mW false qC2 kC2 vC2 none 2
      (by decide) (by decide) (by decide) (by decide)⟩

/-! ### Softmax-row facts (for C6 and C3) -/

theorem sum_map_div (l : List ℝ) (f : ℝ → ℝ) (c : ℝ) :
    (l.map (fun x => f x / c)).sum = (l.map f).sum / c := by
  induction l with
  | nil => simp
  | cons a t ih => simp [ih, add_div]

theorem sum_map_exp_pos (r : List ℝ) (hr : r ≠ []) :
    0 < (r.map Real.exp).sum := by
  apply List.sum_pos
  · intro x hx
    rcases List.mem_map.mp hx with ⟨y, _, rfl⟩
    exact Real.exp_pos y
  · simpa using hr

/-- A nonempty softmax row sums to 1. -/
theorem softmaxRow_sum (r : List ℝ) (hr : r ≠ []) : (softmaxRow r).sum = 1 := by
  unfold softmaxRow
  rw [sum_map_div]
  exact div_self (ne_of_gt (sum_map_exp_pos r hr))

theorem getD_map_of_default {α β : Type} (f : α → β) (d : α) (e : β)
    (hf : f d = e) (l : List α) (i : ℕ) :
    (l.map f).getD i e = f (l.getD i d) := by
  induction l generalizing i with
  | nil => simp [hf]
  | cons a t ih =>
    cases i with
    | zero => rfl
    | succ n => simpa using ih n

theorem softmaxScores_getD (s : HeadScores) (h t : ℕ) :
    ((softmaxScores s).getD h []).getD t [] =
      softmaxRow ((s.getD h []).getD t []) := by
  unfold softmaxScores
  rw [getD_map_of_default (fun rows => rows.map softmaxRow) [] [] rfl]
  rw [getD_map_of_default softmaxRow [] [] rfl]

theorem getD_map_exists {α β : Type} (l : List α) (f : α → β) (b : ℕ) (e : β) :
    (l.map f).getD b e = e ∨ ∃ a ∈ l, (l.map f).getD b e = f a := by
  induction l generalizing b with
  | nil => left; simp
  | cons x t ih =>
    cases b with
    | zero => right; exact ⟨x, List.mem_cons_self x t, rfl⟩
    | succ n =>
      rcases ih n with h | ⟨a, ha, h⟩
      · left; simpa using h
      · right; exact ⟨a, List.mem_cons_of_mem x ha, by simpa using h⟩

theorem mem_zipWith_exists {α β γ : Type} {g : α → β → γ} {l1 : List α}
    {l2 : List β} {a : γ} (ha : a ∈ List.zipWith g l1 l2) :
    ∃ x y, a = g x y := by
  induction l1 generalizing l2 with
  | nil => simp at ha
  | cons x t ih =>
    cases l2 with
    | nil => simp at ha
    | cons y t2 =>
      rcases List.mem_cons.mp ha with h | h
      · exact ⟨x, y, h⟩
      · exact ih h

theorem attnCoreElem_snd (m : Module) (cf : Bool) (q k v : HeadSeq)
    (mask : Option (List (List (List Bool)))) :
    (attnCoreElem m cf q k v mask).2 =
      softmaxScores (maskedScores m cf q k mask) := rfl

theorem softmax_shape_of_map_snd (outs : List (Seq × HeadScores))
    (hout : ∀ a ∈ outs, ∃ ms, a.2 = softmaxScores ms) (b : ℕ) :
    ∃ ms, (outs.map (fun x => x.2)).getD b [] = softmaxScores ms := by
  rcases getD_map_exists outs (fun x => x.2) b [] with h | ⟨a, ha, h⟩
  · exact ⟨[], by rw [h]; rfl⟩
  · rcases hout a ha with ⟨ms, hms⟩
    exact ⟨ms, by rw [h, hms]⟩

/-- Every per-batch slice of the attention tensor returned by `forward` is a
softmax image. -/
theorem forward_attn_shape (m : Module) (c : LayerCache)
    (key value query : List Seq) (mask : Option MaskArg) (s : ℕ)
    (ctx : List Seq) (attn : List HeadScores) (c' : LayerCache) (b : ℕ)
    (hok : forward m c key value query mask s = .ok (ctx, attn, c')) :
    ∃ ms, attn.getD b [] = softmaxScores ms := by
  unfold forward at hok
  cases mask with
  | none =>
    simp only [Except.ok.injEq, Prod.mk.injEq] at hok
    obtain ⟨_, hattn, _⟩ := hok
    rw [← hattn]
    apply softmax_shape_of_map_snd
    intro a ha
    rcases mem_zipWith_exists ha with ⟨x, y, rfl⟩
    exact ⟨_, attnCoreElem_snd m c.enabled x y.1 y.2 none⟩
  | some marg =>
    cases hem : expandMask marg m.headCount with
    | none =>
      simp only [hem] at hok
      exact (Except.noConfusion hok)
    | some m4 =>
      simp only [hem, Except.ok.injEq, Prod.mk.injEq] at hok
      obtain ⟨_, hattn, _⟩ := hok
      rw [← hattn]
      apply softmax_shape_of_map_snd
      intro a ha
      rcases mem_zipWith_exists ha with ⟨x, y, rfl⟩
      exact ⟨_, attnCoreElem_snd m c.enabled x y.1.1 y.1.2 (some y.2)⟩

/-- "Row `(b, h, t)` is not fully masked" for a `forward` mask argument: the
mask row that reaches score row `(h, t)` of batch element `b` (after the
head broadcast) has at least one `false`. -/
def rowNotFullyMasked (mask : Option MaskArg) (b h t : ℕ) : Prop :=
  match mask with
  | none => True
  | some (.m3 mm) => ¬(((mm.getD b []).getD t []).all (fun x => x) = true)
  | some (.m4 mm) =>
    ¬((((mm.getD b []).getD
          (if (mm.getD b []).length = 1 then 0 else h) []).getD t []).all
        (fun x => x) = true)

/-- C6: every row of the attention-weight tensor returned by `forward` (the
post-softmax, pre-dropout tensor) sums to 1 over the key-length axis, for
every non-empty, not-fully-masked row. -/
theorem attn_rows_sum_one (m : Module) (c : LayerCache)
    (key value query : List Seq) (mask : Option MaskArg) (s : ℕ)
    (ctx : List Seq) (attn : List HeadScores) (c' : LayerCache) (b h t : ℕ)
    (hok : forward m c key value query mask s = .ok (ctx, attn, c'))
    (hrow : ((attn.getD b []).getD h []).getD t [] ≠ [])
    (hnfm : rowNotFullyMasked mask b h t) :
    (((attn.getD b []).getD h []).getD t []).sum = 1 := by
  obtain ⟨ms, hms⟩ :=
    forward_attn_shape m c key value query mask s ctx attn c' b hok
  rw [hms] at hrow ⊢
  rw [softmaxScores_getD] at hrow ⊢
  apply softmaxRow_sum
  intro hnil
  rw [hnil] at hrow
  exact hrow rfl

/-- Concrete evaluation of a training-mode forward call on `mW` with the
single zero input. -/
theorem forward_mW_eval :
    forward mW ⟨false, [], []⟩ [[[0]]] [[[0]]] [[[0]]] none 0 =
      .ok ([[[0]]], [[[[1]]]], ⟨false, [], []⟩) := by
  norm_num [forward, projectStage, projShape, applyLinear, matVec, addVecP, dot,
    shape, headSplit, vslice, mW, attnCoreElem, maskedScores, rawScores, scaledQ,
    relZOf, keyLenOf, mqExpand, softmaxScores, softmaxRow, weightedSum, scaleVec,
    vecZero, unshape, List.range_succ, Real.sqrt_one, Real.exp_zero, addScores,
    relScores]

theorem getD_zipWith {α β γ : Type} (f : α → β → γ) (a : List α) (b : List β)
    (i : ℕ) (da : α) (db : β) (d : γ) (ha : i < a.length) (hb : i < b.length) :
    (List.zipWith f a b).getD i d = f (a.getD i da) (b.getD i db) := by
  induction a generalizing b i with
  | nil => simp at ha
  | cons x t ih =>
    cases b with
    | nil => simp at hb
    | cons y tb =>
      cases i with
      | zero => rfl
      | succ n => simpa using ih tb n (by simpa using ha) (by simpa using hb)

theorem getD_map_lt {α β : Type} (f : α → β) (l : List α) (i : ℕ) (d : α)
    (e : β) (h : i < l.length) : (l.map f).getD i e = f (l.getD i d) := by
  induction l generalizing i with
  | nil => simp at h
  | cons x t ih =>
    cases i with
    | zero => rfl
    | succ n => simpa using ih n (by simpa using h)

theorem getD_mem {α : Type} (l : List α) (i : ℕ) (d : α) (h : i < l.length) :
    l.getD i d ∈ l := by
  induction l generalizing i with
  | nil => simp at h
  | cons x t ih =>
    cases i with
    | zero => exact List.mem_cons_self x t
    | succ n => exact List.mem_cons_of_mem x (ih n (by simpa using h))

/-- Entry view of `masked_fill`: in-bounds positions become `-1e18` where the
mask is true and keep their score where it is false. -/
theorem maskedFill_getD (s : HeadScores) (mk : List (List (List Bool)))
    (h i j : ℕ) (hh : h < s.length) (hh' : h < mk.length)
    (hi : i < (s.getD h []).length) (hi' : i < (mk.getD h []).length)
    (hj : j < ((s.getD h []).getD i []).length)
    (hj' : j < ((mk.getD h []).getD i []).length) :
    (((maskedFill s mk).getD h []).getD i []).getD j 0 =
      if ((mk.getD h []).getD i []).getD j false then -(1e18 : ℝ)
      else ((s.getD h []).getD i []).getD j 0 := by
  unfold maskedFill
  rw [getD_zipWith (List.zipWith (List.zipWith fun x b => if b then -(1e18 : ℝ) else x))
    s mk h [] [] [] hh hh']
  rw [getD_zipWith (List.zipWith fun x b => if b then -(1e18 : ℝ) else x)
    _ _ i [] [] [] hi hi']
  rw [getD_zipWith (fun x b => if b then -(1e18 : ℝ) else x) _ _ j 0 false 0 hj hj']

/-- An in-bounds softmax entry is `exp` of the score over the row's `exp`
sum. -/
theorem softmaxRow_getD (r : List ℝ) (j : ℕ) (hj : j < r.length) :
    (softmaxRow r).getD j 0 = Real.exp (r.getD j 0) / (r.map Real.exp).sum := by
  unfold softmaxRow
  rw [getD_map_lt (fun x => Real.exp x / (r.map Real.exp).sum) r j 0 0 hj]

/-- A single exponential never exceeds the exponential sum of a row it
belongs to. -/
theorem exp_getD_le_sum (r : List ℝ) (j : ℕ) (hj : j < r.length) :
    Real.exp (r.getD j 0) ≤ (r.map Real.exp).sum := by
  apply List.single_le_sum
  · intro x hx
    rcases List.mem_map.mp hx with ⟨y, _, rfl⟩
    exact le_of_lt (Real.exp_pos y)
  · exact List.mem_map.mpr ⟨r.getD j 0, getD_mem r j 0 hj, rfl⟩

/-- C3 counterexample: when the masked pair sits in a fully masked row
(here: a single key, masked), its attention weight is 1 — not effectively
zero — because `-1e18` is finite and softmax renormalizes the row. -/
theorem masked_weight_one_when_fully_masked :
    ((((attnCoreElem mW false [[[0]]] [[[0]]] [[[0]]]
        (some [[[true]]])).2.getD 0 []).getD 0 []).getD 0 0) = 1 := by
  norm_num [attnCoreElem, maskedScores, rawScores, scaledQ, relZOf, keyLenOf,
    mqExpand, maskedFill, softmaxScores, softmaxRow, mW, Real.sqrt_one,
    List.range_succ]

/-- C3 (amended): for every in-bounds `(query, key)` pair marked true in the
(broadcast) mask, the post-mask score is the very large negative *finite*
value `-1e18` (not `-∞`), and — provided the row is not fully masked, i.e.
it contains an unmasked position whose raw score is at least `-B` — the
returned attention weight at the masked pair is at most `exp (B - 1e18)`,
a negligible tolerance. -/
theorem masked_positions_suppressed (m : Module) (cf : Bool)
    (q k v : HeadSeq) (me : List (List (List Bool))) (h i j j' : ℕ) (B : ℝ)
    (hh : h < (rawScores m cf q k).length) (hh' : h < me.length)
    (hi : i < ((rawScores m cf q k).getD h []).length)
    (hi' : i < (me.getD h []).length)
    (hj : j < (((rawScores m cf q k).getD h []).getD i []).length)
    (hjm : j < ((me.getD h []).getD i []).length)
    (hmask : ((me.getD h []).getD i []).getD j false = true)
    (hj' : j' < (((rawScores m cf q k).getD h []).getD i []).length)
    (hj'm : j' < ((me.getD h []).getD i []).length)
    (hmask' : ((me.getD h []).getD i []).getD j' false = false)
    (hB : -B ≤ (((rawScores m cf q k).getD h []).getD i []).getD j' 0) :
    (((maskedScores m cf q k (some me)).getD h []).getD i []).getD j 0
        = -(1e18 : ℝ) ∧
      ((((attnCoreElem m cf q k v (some me)).2.getD h []).getD i []).getD j 0)
        ≤ Real.exp (B - 1e18) := by
  have hms : (((maskedScores m cf q k (some me)).getD h []).getD i []).getD j 0
      = -(1e18 : ℝ) := by
    show (((maskedFill (rawScores m cf q k) me).getD h []).getD i []).getD j 0
      = -(1e18 : ℝ)
    rw [maskedFill_getD _ _ h i j hh hh' hi hi' hj hjm, hmask, if_pos rfl]
  refine ⟨hms, ?_⟩
  have hrow := maskedFill_getD (rawScores m cf q k) me h i j' hh hh' hi hi' hj' hj'm
  rw [hmask'] at hrow
  simp only [Bool.false_eq_true, if_false] at hrow
  -- the attention entry is the softmax of the masked row
  rw [attnCoreElem_snd, softmaxScores_getD]
  have hlen : j < ((((maskedScores m cf q k (some me)).getD h []).getD i []).length) := by
    show j < (((maskedFill (rawScores m cf q k) me).getD h []).getD i []).length
    unfold maskedFill
    rw [getD_zipWith (List.zipWith (List.zipWith fun x b => if b then -(1e18 : ℝ) else x))
      _ _ h [] [] [] hh hh']
    rw [getD_zipWith (List.zipWith fun x b => if b then -(1e18 : ℝ) else x)
      _ _ i [] [] [] hi hi']
    rw [List.length_zipWith]
    exact lt_min hj hjm
  have hlen' : j' < ((((maskedScores m cf q k (some me)).getD h []).getD i []).length) := by
    show j' < (((maskedFill (rawScores m cf q k) me).getD h []).getD i []).length
    unfold maskedFill
    rw [getD_zipWith (List.zipWith (List.zipWith fun x b => if b then -(1e18 : ℝ) else x))
      _ _ h [] [] [] hh hh']
    rw [getD_zipWith (List.zipWith fun x b => if b then -(1e18 : ℝ) else x)
      _ _ i [] [] [] hi hi']
    rw [List.length_zipWith]
    exact lt_min hj' hj'm
  rw [softmaxRow_getD _ j hlen, hms]
  have hS : Real.exp (-B) ≤
      (((((maskedScores m cf q k (some me)).getD h []).getD i []).map Real.exp).sum) := by
    calc Real.exp (-B) ≤
        Real.exp ((((maskedScores m cf q k (some me)).getD h []).getD i []).getD j' 0) := by
          apply Real.exp_le_exp.mpr
          show -B ≤ _
          have : (((maskedScores m cf q k (some me)).getD h []).getD i []).getD j' 0
              = (((rawScores m cf q k).getD h []).getD i []).getD j' 0 := hrow
          rw [this]
          exact hB
      _ ≤ _ := exp_getD_le_sum _ j' hlen'
  calc Real.exp (-(1e18 : ℝ)) /
        ((((maskedScores m cf q k (some me)).getD h []).getD i []).map Real.exp).sum
      ≤ Real.exp (-(1e18 : ℝ)) / Real.exp (-B) :=
        div_le_div_of_nonneg_left (le_of_lt (Real.exp_pos _)) (Real.exp_pos _) hS
    _ = Real.exp (B - 1e18) := by
        rw [← Real.exp_sub]
        ring_nf

theorem getD_replicate_lt {α : Type} (n i : ℕ) (a d : α) (h : i < n) :
    (List.replicate n a).getD i d = a := by
  induction n generalizing i with
  | zero => simp at h
  | succ k ih =>
    cases i with
    | zero => rfl
    | succ j =>
      show (List.replicate k a).getD j d = a
      exact ih j (by omega)

/-- C9 counterexample: a 3-D boolean mask of shape
`(batch, query_len, key_len)` makes the forward call raise a shape error in
`mask.expand(-1, head_count, -1, -1)` (a new leading dimension cannot be
`-1`): the call does not succeed. -/
theorem mask_3d_raises :
    forward mW ⟨false, [], []⟩ [[[0]]] [[[0]]] [[[0]]]
      (some (.m3 [[[true]]])) 0 = .error "RuntimeError: expand" := rfl

/-- C9 (amended): the mask must carry an explicit head axis: a 4-D boolean
mask of shape `(batch, 1, query_len, key_len)` succeeds (no shape error), the
single head row is broadcast to all `head_count` heads, and every in-bounds
position marked true is excluded from attention by being overwritten with
`-1e18` before the softmax. -/
theorem mask_4d_singleton_head_accepted (m : Module) (c : LayerCache)
    (key value query : List Seq) (mm : List (List (List (List Bool)))) (s : ℕ)
    (hm : ∀ be ∈ mm, be.length = 1) :
    (∃ out, forward m c key value query (some (.m4 mm)) s = .ok out) ∧
      expandMask (.m4 mm) m.headCount =
        some (mm.map (fun be => List.replicate m.headCount (be.headD []))) ∧
      ∀ (b : ℕ) (sc : HeadScores) (h i j : ℕ), h < m.headCount → h < sc.length →
        i < (sc.getD h []).length → i < ((mm.getD b []).headD []).length →
        j < ((sc.getD h []).getD i []).length →
        j < ((((mm.getD b []).headD []).getD i []).length) →
        ((((mm.getD b []).headD []).getD i []).getD j false = true) →
        (((maskedFill sc
              (List.replicate m.headCount ((mm.getD b []).headD []))).getD h
            []).getD i []).getD j 0 = -(1e18 : ℝ) := by
  have he : expandMask (.m4 mm) m.headCount =
      some (mm.map (fun be => List.replicate m.headCount (be.headD []))) := by
    show (if (mm.all fun be => be.length == 1 || be.length == m.headCount) = true
        then some (mm.map (fun be =>
          if (be.length == 1) = true then List.replicate m.headCount (be.headD [])
          else be))
        else none) =
      some (mm.map (fun be => List.replicate m.headCount (be.headD [])))
    rw [if_pos]
    · congr 1
      apply List.map_congr_left
      intro be hbe
      rw [if_pos (by simp [hm be hbe])]
    · rw [List.all_eq_true]
      intro be hbe
      simp [hm be hbe]
  refine ⟨?_, he, ?_⟩
  · unfold forward
    simp only [he]
    exact ⟨_, rfl⟩
  · intro b sc h i j hhc hhs his him hjs hjm hmk
    rw [maskedFill_getD sc _ h i j hhs (by simpa using hhc)
      his (by rwa [getD_replicate_lt _ _ _ _ hhc])
      hjs (by rwa [getD_replicate_lt _ _ _ _ hhc])]
    rw [getD_replicate_lt _ _ _ _ hhc, hmk, if_pos rfl]

/-- Witness for C9: a concrete `(1, 1, 1, 1)` mask. -/
theorem mask_4d_singleton_head_accepted_witness :
    (∀ be ∈ ([[[[true]]]] : List (List (List (List Bool)))), be.length = 1) ∧
      ((∃ out, forward mW ⟨false, [], []⟩ [[[0]]] [[[0]]] [[[0]]]
          (some (.m4 [[[[true]]]])) 0 = .ok out) ∧
        expandMask (.m4 [[[[true]]]]) mW.headCount =
          some ([[[[true]]]].map
            (fun be => List.replicate mW.headCount (be.headD []))) ∧
        ∀ (b : ℕ) (sc : HeadScores) (h i j : ℕ), h < mW.headCount →
          h < sc.length →
          i < (sc.getD h []).length →
          i < (([[[[true]]]].getD b []).headD []).length →
          j < ((sc.getD h []).getD i []).length →
          j < ((((List.getD [[[[true]]]] b []).headD []).getD i []).length) →
          (((([[[[true]]]].getD b []).headD []).getD i []).getD j false = true) →
          (((maskedFill sc
                (List.replicate mW.headCount
                  (([[[[true]]]].getD b []).headD []))).getD h
              []).getD i []).getD j 0 = -(1e18 : ℝ)) :=
  ⟨by decide,
    mask_4d_singleton_head_accepted mW ⟨false, [], []⟩ [[[0]]] [[[0]]] [[[0]]]
      [[[[true]]]] 0 (by decide)⟩

theorem rawScores_C3_eval :
    rawScores mW false [[[0]]] [[[(0 : ℝ)], [0]]] = [[[0, 0]]] := by
  norm_num [rawScores, scaledQ, mqExpand, relZOf, keyLenOf, mW, Real.sqrt_one, dot]

/-- Witness for C3 at a concrete two-key row whose first key is masked. -/
theorem masked_positions_suppressed_witness :
    (((([[[true, false]]] : List (List (List Bool))).getD 0 []).getD 0 []).getD 0
        false = true) ∧
      (((maskedScores mW false [[[0]]] [[[(0 : ℝ)], [0]]]
            (some [[[true, false]]])).getD 0 []).getD 0 []).getD 0 0
          = -(1e18 : ℝ) ∧
        ((((attnCoreElem mW false [[[0]]] [[[(0 : ℝ)], [0]]] [[[(0 : ℝ)], [0]]]
            (some [[[true, false]]])).2.getD 0 []).getD 0 []).getD 0 0)
          ≤ Real.exp (0 - 1e18) :=
  ⟨by decide,
    masked_positions_suppressed mW false [[[0]]] [[[(0 : ℝ)], [0]]]
      [[[(0 : ℝ)], [0]]] [[[true, false]]] 0 0 0 1 0
      (by rw [rawScores_C3_eval]; norm_num)
      (by norm_num)
      (by rw [rawScores_C3_eval]; norm_num)
      (by norm_num)
      (by rw [rawScores_C3_eval]; norm_num)
      (by norm_num)
      (by norm_num)
      (by rw [rawScores_C3_eval]; norm_num)
      (by norm_num)
      (by norm_num)
      (by rw [rawScores_C3_eval]; norm_num)⟩

/-! ### List infrastructure for the cache-equivalence proof (C1) -/

theorem idxMapFrom_length {α β : Type} (f : ℕ → α → β) (n : ℕ) (l : List α) :
    (idxMapFrom f n l).length = l.length := by
  induction l generalizing n with
  | nil => rfl
  | cons a t ih => simp [idxMapFrom, ih]

theorem idxMap_length {α β : Type} (f : ℕ → α → β) (l : List α) :
    (idxMap f l).length = l.length := idxMapFrom_length f 0 l

theorem idxMapFrom_append {α β : Type} (f : ℕ → α → β) (n : ℕ) (a b : List α) :
    idxMapFrom f n (a ++ b) = idxMapFrom f n a ++ idxMapFrom f (n + a.length) b := by
  induction a generalizing n with
  | nil => simp [idxMapFrom]
  | cons x t ih =>
    have harith : n + 1 + t.length = n + (t.length + 1) := by omega
    simp only [List.cons_append, idxMapFrom, List.length_cons, List.append_eq,
      ih, harith]

theorem idxMapFrom_shift {α β : Type} (f : ℕ → α → β) (n k : ℕ) (l : List α) :
    idxMapFrom f (n + k) l = idxMapFrom (fun p v => f (n + p) v) k l := by
  induction l generalizing k with
  | nil => rfl
  | cons a t ih =>
    have harith : n + k + 1 = n + (k + 1) := by omega
    simp only [idxMapFrom, harith, ih]

theorem idxMapFrom_getD {α β : Type} (f : ℕ → α → β) (n : ℕ) (l : List α)
    (i : ℕ) (d : α) (e : β) (h : i < l.length) :
    (idxMapFrom f n l).getD i e = f (n + i) (l.getD i d) := by
  induction l generalizing n i with
  | nil => simp at h
  | cons a t ih =>
    cases i with
    | zero =>
      show f n a = f (n + 0) a
      rw [Nat.add_zero]
    | succ j =>
      show (idxMapFrom f (n + 1) t).getD j e = f (n + (j + 1)) (t.getD j d)
      rw [ih (n + 1) j (by simpa using h)]
      congr 1
      omega

theorem idxMap_getD {α β : Type} (f : ℕ → α → β) (l : List α) (i : ℕ) (d : α)
    (e : β) (h : i < l.length) :
    (idxMap f l).getD i e = f i (l.getD i d) := by
  rw [idxMap, idxMapFrom_getD f 0 l i d e h, Nat.zero_add]

theorem zipWith_map_same {α β γ δ : Type} (g : β → γ → δ) (f1 : α → β)
    (f2 : α → γ) (l : List α) :
    List.zipWith g (l.map f1) (l.map f2) = l.map (fun a => g (f1 a) (f2 a)) := by
  induction l with
  | nil => rfl
  | cons a t ih => simp [ih]

theorem getD_range (n i d : ℕ) (h : i < n) : (List.range n).getD i d = i := by
  rw [List.getD_eq_getElem?_getD,
    List.getElem?_eq_getElem (by simpa using h), List.getElem_range]
  rfl

theorem map_eq_of_getD {α β : Type} (A B : List α) (f g : α → β) (d : α)
    (hl : A.length = B.length)
    (hp : ∀ i < A.length, f (A.getD i d) = g (B.getD i d)) :
    A.map f = B.map g := by
  induction A generalizing B with
  | nil =>
    cases B with
    | nil => rfl
    | cons b tb => simp at hl
  | cons a ta ih =>
    cases B with
    | nil => simp at hl
    | cons b tb =>
      simp only [List.map_cons, List.cons.injEq]
      constructor
      · exact hp 0 (by simp)
      · exact ih tb (by simpa using hl)
          (fun i hi => hp (i + 1) (by simpa using hi))

theorem take_one_of_ne_nil {α : Type} (x : List α) (d : α) (hx : x ≠ []) :
    x.take 1 = [x.getD 0 d] := by
  cases x with
  | nil => exact absurd rfl hx
  | cons a t => rfl

theorem take_succ_getD {α : Type} (x : List α) (t : ℕ) (d : α)
    (h : t < x.length) : x.take (t + 1) = x.take t ++ [x.getD t d] := by
  rw [List.take_succ, List.getElem?_eq_getElem h]
  rw [List.getD_eq_getElem?_getD, List.getElem?_eq_getElem h]
  rfl

theorem zipWith_congr_mem {α β γ : Type} (f g : α → β → γ) (A : List α)
    (B : List β) (h : ∀ a ∈ A, ∀ b ∈ B, f a b = g a b) :
    List.zipWith f A B = List.zipWith g A B := by
  induction A generalizing B with
  | nil => rfl
  | cons a t ih =>
    cases B with
    | nil => rfl
    | cons b tb =>
      simp only [List.zipWith, List.cons.injEq]
      exact ⟨h a (by simp) b (by simp),
        ih tb (fun a' ha' b' hb' =>
          h a' (List.mem_cons_of_mem a ha') b' (List.mem_cons_of_mem b hb'))⟩

theorem applyLinear_row_length (L : LinearLayer) (v : Vec) :
    (addVecP (matVec L.weight v) L.bias).length = projLen L := by
  simp [addVecP, matVec, projLen]

theorem applyLinear_headD (L : LinearLayer) (y : Seq) (hy : y ≠ []) :
    ((applyLinear L y).headD []).length = projLen L := by
  cases y with
  | nil => exact absurd rfl hy
  | cons a t => exact applyLinear_row_length L a

theorem applyLinear_append (L : LinearLayer) (y z : Seq) :
    applyLinear L (y ++ z) = applyLinear L y ++ applyLinear L z :=
  List.map_append _ _ _

theorem applyLinear_length (L : LinearLayer) (y : Seq) :
    (applyLinear L y).length = y.length := List.length_map _ _

theorem mem_applyLinear_length (L : LinearLayer) (y : Seq) {w : Vec}
    (hw : w ∈ applyLinear L y) : w.length = projLen L := by
  rcases List.mem_map.mp hw with ⟨v, _, rfl⟩
  exact applyLinear_row_length L v

/-- Canonical form of `projShape` on a nonempty sequence: the head count is
`projLen L / dim_per_head`, uniformly in the input. -/
theorem projShape_eq (m : Module) (L : LinearLayer) (y : Seq) (hy : y ≠ []) :
    projShape m L y = (List.range (projLen L / m.dimPerHead)).map
      (fun h => (applyLinear L y).map
        (fun v => vslice v (h * m.dimPerHead) m.dimPerHead)) := by
  unfold projShape shape headSplit
  rw [applyLinear_headD L y hy]

theorem projShape_append (m : Module) (L : LinearLayer) (y : Seq) (w : Vec)
    (hy : y ≠ []) :
    projShape m L (y ++ [w]) =
      List.zipWith (· ++ ·) (projShape m L y) (projShape m L [w]) := by
  rw [projShape_eq m L (y ++ [w]) (by simp), projShape_eq m L y hy,
    projShape_eq m L [w] (by simp), zipWith_map_same]
  apply List.map_congr_left
  intro h _
  rw [applyLinear_append, List.map_append]

theorem applyRotary_zipWith_append (d : ℕ) (n : ℕ) (A B : HeadSeq)
    (hA : ∀ a ∈ A, a.length = n) :
    applyRotary d 0 (List.zipWith (· ++ ·) A B) =
      List.zipWith (· ++ ·) (applyRotary d 0 A) (applyRotary d n B) := by
  unfold applyRotary
  rw [List.map_zipWith, List.zipWith_map]
  apply zipWith_congr_mem
  intro a ha b _
  show idxMap (fun p v => rotateVec d (0 + p) v) (a ++ b) =
    idxMap (fun p v => rotateVec d (0 + p) v) a ++
      idxMap (fun p v => rotateVec d (n + p) v) b
  rw [idxMap, idxMapFrom_append, hA a ha]
  congr 1
  have h0 : (0 : ℕ) + n = 0 + n + 0 := by omega
  rw [idxMap, h0, idxMapFrom_shift _ (0 + n) 0 b]
  simp [Nat.zero_add]

theorem pairs_length (v : Vec) : (pairs v).length = v.length / 2 := by
  induction v using pairs.induct with
  | case1 a b rest ih =>
    simp only [pairs, List.length_cons, ih]
    omega
  | case2 v h =>
    cases v with
    | nil => simp [pairs]
    | cons a t =>
      cases t with
      | nil => simp [pairs]
      | cons b r => exact absurd rfl (fun hh => h a b r hh)

theorem unpairs_length (l : List (ℝ × ℝ)) : (unpairs l).length = 2 * l.length := by
  induction l with
  | nil => rfl
  | cons p t ih =>
    have hstep : unpairs (p :: t) = [p.1, p.2] ++ unpairs t := rfl
    rw [hstep, List.length_append, ih, List.length_cons]
    simp only [List.length_cons, List.length_nil]
    omega

theorem rotateVec_length (d p : ℕ) (v : Vec) :
    (rotateVec d p v).length = 2 * (v.length / 2) := by
  unfold rotateVec
  rw [unpairs_length, idxMap_length, pairs_length]

/-- Proof-side abbreviation for the rotary branch of `forward` (source lines
248-257 / 288-297): rotate exactly in rotary mode. -/
noncomputable def maybeRot (m : Module) (start : ℕ) (hsx : HeadSeq) : HeadSeq :=
  if m.maxRelativePositions = -1 then applyRotary m.dimPerHead start hsx else hsx

theorem vslice_length (v : Vec) (s l : ℕ) :
    (vslice v s l).length = min l (v.length - s) := by
  simp [vslice]

theorem mem_idxMapFrom {α β : Type} {f : ℕ → α → β} {n : ℕ} {l : List α}
    {b : β} (hb : b ∈ idxMapFrom f n l) : ∃ p a, a ∈ l ∧ b = f p a := by
  induction l generalizing n with
  | nil => simp [idxMapFrom] at hb
  | cons x t ih =>
    rcases List.mem_cons.mp hb with h | h
    · exact ⟨n, x, by simp, h⟩
    · rcases ih h with ⟨p, a, ha, hba⟩
      exact ⟨p, a, List.mem_cons_of_mem x ha, hba⟩

theorem mem_projShape (m : Module) (L : LinearLayer) (y : Seq) (hy : y ≠ [])
    {hseq : Seq} (hmem : hseq ∈ projShape m L y) :
    ∃ h, h < projLen L / m.dimPerHead ∧ hseq = (applyLinear L y).map
      (fun v => vslice v (h * m.dimPerHead) m.dimPerHead) := by
  rw [projShape_eq m L y hy] at hmem
  rcases List.mem_map.mp hmem with ⟨h, hh, rfl⟩
  exact ⟨h, List.mem_range.mp hh, rfl⟩

/-- A slice taken by an in-range head index has the full width
`dim_per_head`. -/
theorem vslice_head_length (pl dph h : ℕ) (hh : h < pl / dph) (v : Vec)
    (hv : v.length = pl) : (vslice v (h * dph) dph).length = dph := by
  rw [vslice_length, hv]
  have h1 : (h + 1) * dph ≤ (pl / dph) * dph := Nat.mul_le_mul_right _ hh
  have h2 : (pl / dph) * dph ≤ pl := Nat.div_mul_le_self _ _
  have h3 : (h + 1) * dph = h * dph + dph := by ring
  omega

theorem maybeRot_length (m : Module) (s₀ : ℕ) (A : HeadSeq) :
    (maybeRot m s₀ A).length = A.length := by
  unfold maybeRot
  by_cases hr : m.maxRelativePositions = -1
  · rw [if_pos hr]
    unfold applyRotary
    rw [List.length_map]
  · rw [if_neg hr]

theorem projShape_length (m : Module) (L : LinearLayer) (y : Seq)
    (hy : y ≠ []) :
    (projShape m L y).length = projLen L / m.dimPerHead := by
  rw [projShape_eq m L y hy, List.length_map, List.length_range]

/-- Every vector of a shaped (and possibly rotated) nonempty projection has
positive length, so the cached tensor has positive `numel`. -/
theorem numel_maybeRot_pos (m : Module) (L : LinearLayer) (y : Seq) (s₀ : ℕ)
    (hy : y ≠ []) (hdph : 0 < m.dimPerHead)
    (heven : m.maxRelativePositions = -1 → m.dimPerHead % 2 = 0)
    (hL : m.dimPerHead ≤ projLen L) :
    numel [maybeRot m s₀ (projShape m L y)] ≠ 0 := by
  have hvec : ∀ hseq ∈ maybeRot m s₀ (projShape m L y),
      hseq ≠ [] ∧ ∀ v ∈ hseq, 0 < v.length := by
    intro hseq hmem
    unfold maybeRot at hmem
    by_cases hr : m.maxRelativePositions = -1
    · rw [if_pos hr] at hmem
      unfold applyRotary at hmem
      rcases List.mem_map.mp hmem with ⟨hseq0, hmem0, rfl⟩
      rcases mem_projShape m L y hy hmem0 with ⟨h, hh, rfl⟩
      refine ⟨?_, ?_⟩
      · intro hnil
        have hl := congrArg List.length hnil
        simp only [idxMap, idxMapFrom_length, List.length_map,
          applyLinear_length, List.length_nil] at hl
        exact hy (List.length_eq_zero.mp hl)
      · intro v hv
        rcases mem_idxMapFrom hv with ⟨p, v0, hv0, rfl⟩
        rcases List.mem_map.mp hv0 with ⟨w, hwmem, rfl⟩
        rw [rotateVec_length, vslice_head_length (projLen L) m.dimPerHead h hh _
          (mem_applyLinear_length L y hwmem)]
        have := heven hr
        omega
    · rw [if_neg hr] at hmem
      rcases mem_projShape m L y hy hmem with ⟨h, hh, rfl⟩
      refine ⟨?_, ?_⟩
      · intro hnil
        have hl := congrArg List.length hnil
        simp only [List.length_map, applyLinear_length, List.length_nil] at hl
        exact hy (List.length_eq_zero.mp hl)
      · intro v hv
        rcases List.mem_map.mp hv with ⟨w, hwmem, rfl⟩
        rw [vslice_head_length (projLen L) m.dimPerHead h hh _
          (mem_applyLinear_length L y hwmem)]
        exact hdph
  have hKne : maybeRot m s₀ (projShape m L y) ≠ [] := by
    intro hnil
    have hl := congrArg List.length hnil
    rw [maybeRot_length, projShape_length m L y hy] at hl
    have hpos : 0 < projLen L / m.dimPerHead := Nat.div_pos hL hdph
    simp only [List.length_nil] at hl
    omega
  have hsum : numel [maybeRot m s₀ (projShape m L y)] =
      ((maybeRot m s₀ (projShape m L y)).map
        (fun hs => (hs.map List.length).sum)).sum := by
    simp [numel]
  have hpos : 0 < numel [maybeRot m s₀ (projShape m L y)] := by
    rw [hsum]
    apply List.sum_pos
    · intro s hs
      rcases List.mem_map.mp hs with ⟨hseq, hmem, rfl⟩
      apply List.sum_pos
      · intro len hlen
        rcases List.mem_map.mp hlen with ⟨v, hvm, rfl⟩
        exact (hvec hseq hmem).2 v hvm
      · simpa using (hvec hseq hmem).1
    · simpa using hKne
  omega

theorem numel_singleton_pos (A : HeadSeq) (hne : A ≠ [])
    (hvec : ∀ hseq ∈ A, hseq ≠ [] ∧ ∀ v ∈ hseq, 0 < v.length) :
    numel [A] ≠ 0 := by
  have hsum : numel [A] = (A.map (fun hs => (hs.map List.length).sum)).sum := by
    simp [numel]
  have hpos : 0 < numel [A] := by
    rw [hsum]
    apply List.sum_pos
    · intro s hs
      rcases List.mem_map.mp hs with ⟨hseq, hmem, rfl⟩
      apply List.sum_pos
      · intro len hlen
        rcases List.mem_map.mp hlen with ⟨v, hvm, rfl⟩
        exact (hvec hseq hmem).2 v hvm
      · simpa using (hvec hseq hmem).1
    · simpa using hne
  omega

theorem numel_proj_pos (m : Module) (L : LinearLayer) (y : Seq)
    (hy : y ≠ []) (hdph : 0 < m.dimPerHead) (hL : m.dimPerHead ≤ projLen L) :
    numel [projShape m L y] ≠ 0 := by
  apply numel_singleton_pos
  · intro hnil
    have hl := congrArg List.length hnil
    rw [projShape_length m L y hy] at hl
    have := Nat.div_pos hL hdph
    simp only [List.length_nil] at hl
    omega
  · intro hseq hmem
    rcases mem_projShape m L y hy hmem with ⟨h, hh, rfl⟩
    constructor
    · intro hnil
      have hl := congrArg List.length hnil
      simp only [List.length_map, applyLinear_length, List.length_nil] at hl
      exact hy (List.length_eq_zero.mp hl)
    · intro v hv
      rcases List.mem_map.mp hv with ⟨w, hwmem, rfl⟩
      rw [vslice_head_length (projLen L) m.dimPerHead h hh _
        (mem_applyLinear_length L y hwmem)]
      exact hdph

theorem projShape_head_lengths (m : Module) (L : LinearLayer) (y : Seq)
    (hy : y ≠ []) : ∀ a ∈ projShape m L y, a.length = y.length := by
  intro a hmem
  rcases mem_projShape m L y hy hmem with ⟨h, _, rfl⟩
  rw [List.length_map, applyLinear_length]

/-- One cache-enabled self-attention decode step on a single position: the
cache gains the rotated shaped key and the shaped value of that position
(appended if the cache already holds something). -/
theorem nextCache_self_step (m : Module) (c : LayerCache) (w : Vec) (t : ℕ)
    (ha : m.attnType = .selfAttn) (hen : c.enabled = true) :
    nextCache m c [[w]] [[w]] [[w]] none t =
      { enabled := c.enabled,
        keys := if numel c.keys ≠ 0
          then catLen c.keys [maybeRot m t (projShape m m.linearKeys [w])]
          else [maybeRot m t (projShape m m.linearKeys [w])],
        values := if numel c.values ≠ 0
          then catLen c.values [projShape m m.linearValues [w]]
          else [projShape m m.linearValues [w]] } := by
  unfold nextCache forward projectStage maybeRot
  by_cases hr : m.maxRelativePositions = -1 <;>
    simp [hen, ha, hr]

/-- Characterization of the decode cache: after steps `0, …, t-1` the cache
holds the (rotary-rotated) shaped key projection and the shaped value
projection of the prefix `x.take t`, exactly as the training-style shaping of
that prefix produces them. -/
theorem decodeCacheUpto_spec (m : Module) (x : Seq)
    (ha : m.attnType = .selfAttn) (hdph : 0 < m.dimPerHead)
    (heven : m.maxRelativePositions = -1 → m.dimPerHead % 2 = 0)
    (hK : m.dimPerHead ≤ projLen m.linearKeys)
    (hV : m.dimPerHead ≤ projLen m.linearValues) :
    ∀ t, 1 ≤ t → t ≤ x.length →
      decodeCacheUpto m x t =
        ⟨true, [maybeRot m 0 (projShape m m.linearKeys (x.take t))],
          [projShape m m.linearValues (x.take t)]⟩ := by
  intro t
  induction t with
  | zero => intro h1; omega
  | succ t ih =>
    intro h1 hle
    have hstep : decodeCacheUpto m x (t + 1) =
        nextCache m (decodeCacheUpto m x t)
          [[x.getD t []]] [[x.getD t []]] [[x.getD t []]] none t := rfl
    by_cases ht : t = 0
    · subst ht
      rw [hstep]
      have h0 : decodeCacheUpto m x 0 = ⟨true, [], []⟩ := rfl
      rw [h0, nextCache_self_step m ⟨true, [], []⟩ (x.getD 0 []) 0 ha rfl]
      have hx : x ≠ [] := by
        intro hnil
        rw [hnil] at hle
        simp at hle
      rw [take_one_of_ne_nil x [] hx]
      simp [numel]
    · have ht1 : 1 ≤ t := Nat.one_le_iff_ne_zero.mpr ht
      have hlt : t ≤ x.length := by omega
      have htN : t < x.length := by omega
      have htake_ne : x.take t ≠ [] := by
        intro hnil
        have hlen0 := congrArg List.length hnil
        rw [List.length_take] at hlen0
        simp only [List.length_nil] at hlen0
        omega
      have htake_len : (x.take t).length = t := by
        rw [List.length_take]
        omega
      rw [hstep, ih ht1 hlt,
        nextCache_self_step m _ (x.getD t []) t ha rfl]
      have hnk : numel [maybeRot m 0 (projShape m m.linearKeys (x.take t))] ≠ 0 :=
        numel_maybeRot_pos m m.linearKeys (x.take t) 0 htake_ne hdph heven hK
      have hnv : numel [projShape m m.linearValues (x.take t)] ≠ 0 :=
        numel_proj_pos m m.linearValues (x.take t) htake_ne hdph hV
      have htake1 : x.take (t + 1) = x.take t ++ [x.getD t []] :=
        take_succ_getD x t [] htN
      have hkeys : List.zipWith (· ++ ·)
            (maybeRot m 0 (projShape m m.linearKeys (x.take t)))
            (maybeRot m t (projShape m m.linearKeys [x.getD t []])) =
          maybeRot m 0 (projShape m m.linearKeys (x.take (t + 1))) := by
        rw [htake1]
        unfold maybeRot
        by_cases hr : m.maxRelativePositions = -1
        · rw [if_pos hr, if_pos hr, if_pos hr,
            projShape_append m m.linearKeys (x.take t) (x.getD t []) htake_ne,
            applyRotary_zipWith_append m.dimPerHead t
              (projShape m m.linearKeys (x.take t))
              (projShape m m.linearKeys [x.getD t []])
              (fun a hamem => by
                rw [projShape_head_lengths m m.linearKeys (x.take t) htake_ne
                  a hamem, htake_len])]
        · rw [if_neg hr, if_neg hr, if_neg hr,
            projShape_append m m.linearKeys (x.take t) (x.getD t []) htake_ne]
      have hvals : List.zipWith (· ++ ·)
            (projShape m m.linearValues (x.take t))
            (projShape m m.linearValues [x.getD t []]) =
          projShape m m.linearValues (x.take (t + 1)) := by
        rw [htake1,
          projShape_append m m.linearValues (x.take t) (x.getD t []) htake_ne]
      rw [if_pos hnk, if_pos hnv]
      show (⟨true, catLen [maybeRot m 0 (projShape m m.linearKeys (x.take t))]
          [maybeRot m t (projShape m m.linearKeys [x.getD t []])],
        catLen [projShape m m.linearValues (x.take t)]
          [projShape m m.linearValues [x.getD t []]]⟩ : LayerCache) = _
      unfold catLen
      simp only [List.zipWith]
      rw [hkeys, hvals]

theorem headD_eq_getD {α : Type} (l : List α) (d : α) :
    l.headD d = l.getD 0 d := by
  cases l with
  | nil => rfl
  | cons a t => rfl

theorem scaledQ_getD (m : Module) (Q : HeadSeq) (h : ℕ) :
    (scaledQ m Q).getD h [] = (Q.getD h []).map
      (fun v => v.map (fun xx => xx / Real.sqrt ((m.dimPerHead : ℝ)))) := by
  unfold scaledQ
  rw [getD_map_of_default _ [] [] rfl]

theorem scoresMatmul_row (SQ K : HeadSeq) (h i : ℕ)
    (hh : h < SQ.length) (hk : h < K.length)
    (hi : i < (SQ.getD h []).length) :
    ((List.zipWith (fun qh kh => qh.map (fun qv => kh.map (dot qv))) SQ K).getD
        h []).getD i [] =
      (K.getD h []).map (dot ((SQ.getD h []).getD i [])) := by
  rw [getD_zipWith _ SQ K h [] [] [] hh hk,
    getD_map_lt _ _ i [] [] hi]

theorem relScores_row (SQ : HeadSeq) (z : List Seq) (h i : ℕ)
    (hh : h < SQ.length) (hi : i < (SQ.getD h []).length) :
    ((relScores SQ z).getD h []).getD i [] =
      (z.getD i []).map (fun zv => dot ((SQ.getD h []).getD i []) zv) := by
  unfold relScores
  rw [getD_map_of_default _ [] [] rfl, idxMap_getD _ _ i [] [] hi]

theorem addScores_row (A B : HeadScores) (h i : ℕ)
    (hha : h < A.length) (hhb : h < B.length)
    (hia : i < (A.getD h []).length) (hib : i < (B.getD h []).length) :
    ((addScores A B).getD h []).getD i [] =
      List.zipWith (· + ·) ((A.getD h []).getD i []) ((B.getD h []).getD i []) := by
  unfold addScores
  rw [getD_zipWith _ A B h [] [] [] hha hhb,
    getD_zipWith _ _ _ i [] [] [] hia hib]

theorem alibiAdd_row (slopes : List ℝ) (S : HeadScores) (h i : ℕ)
    (hh : h < S.length) (hi : i < (S.getD h []).length) :
    ((alibiAdd slopes S).getD h []).getD i [] =
      idxMap (fun j xx => xx + slopes.getD h 0 * ((i : ℝ) - (j : ℝ)))
        ((S.getD h []).getD i []) := by
  unfold alibiAdd
  rw [idxMap_getD _ _ h [] [] hh, idxMap_getD _ _ i [] [] hi]

theorem ctxMatmul_row (dim : ℕ) (A V : HeadSeq) (h i : ℕ)
    (hha : h < A.length) (hhv : h < V.length)
    (hia : i < (A.getD h []).length) :
    ((List.zipWith (fun ah vh => ah.map
        (fun row => weightedSum dim row vh)) A V).getD h []).getD i [] =
      weightedSum dim ((A.getD h []).getD i []) (V.getD h []) := by
  rw [getD_zipWith _ A V h [] [] [] hha hhv,
    getD_map_lt _ _ i [] [] hia]

theorem relContext_row (dim : ℕ) (A : HeadScores) (z : List Seq) (h i : ℕ)
    (hh : h < A.length) (hi : i < (A.getD h []).length) :
    ((relContext dim A z).getD h []).getD i [] =
      weightedSum dim ((A.getD h []).getD i []) (z.getD i []) := by
  unfold relContext
  rw [getD_map_of_default _ [] [] rfl, idxMap_getD _ _ i [] [] hi]

theorem addHeadSeq_row (A B : HeadSeq) (h i : ℕ)
    (hha : h < A.length) (hhb : h < B.length)
    (hia : i < (A.getD h []).length) (hib : i < (B.getD h []).length) :
    ((addHeadSeq A B).getD h []).getD i [] =
      addVecP ((A.getD h []).getD i []) ((B.getD h []).getD i []) := by
  unfold addHeadSeq
  rw [getD_zipWith _ A B h [] [] [] hha hhb,
    getD_zipWith _ _ _ i [] [] [] hia hib]

theorem idxMapFrom_alibi_shift (s : ℝ) (i1 i2 : ℕ) (n : ℕ) (r : List ℝ) :
    idxMapFrom (fun j xx => xx + s * ((i2 : ℝ) - (j : ℝ))) n r =
      (idxMapFrom (fun j xx => xx + s * ((i1 : ℝ) - (j : ℝ))) n r).map
        (· + s * ((i2 : ℝ) - (i1 : ℝ))) := by
  induction r generalizing n with
  | nil => rfl
  | cons a t ih =>
    simp only [idxMapFrom, List.map_cons, List.cons.injEq]
    exact ⟨by ring, ih (n + 1)⟩

theorem softmaxRow_shift (r : List ℝ) (c : ℝ) :
    softmaxRow (r.map (· + c)) = softmaxRow r := by
  unfold softmaxRow
  have hsum : ((r.map (· + c)).map Real.exp).sum =
      (r.map Real.exp).sum * Real.exp c := by
    rw [List.map_map]
    have hfun : (Real.exp ∘ (· + c)) = fun xx => Real.exp xx * Real.exp c := by
      funext xx
      rw [Function.comp_apply, Real.exp_add]
    rw [hfun, List.sum_map_mul_right]
  rw [List.map_map]
  apply List.map_congr_left
  intro xx _
  rw [Function.comp_apply, hsum, Real.exp_add,
    mul_div_mul_right _ _ (Real.exp_ne_zero c)]

theorem map_add_zero (r : List ℝ) : r.map (· + (0 : ℝ)) = r := by
  simp

/-- The final training relative-embedding row (full distance matrix) equals
the single cache-mode row. -/
theorem relZ_last_row (table : List Vec) (N M : ℕ) (hN : 0 < N) :
    (relEmbed table (genRelativePositions N M false)).getD (N - 1) [] =
      (relEmbed table (genRelativePositions N M true)).getD 0 [] := by
  have hlt : N - 1 < N := Nat.sub_lt hN Nat.one_pos
  have hcast : ((N - 1 : ℕ) : ℤ) = (N : ℤ) - 1 := by omega
  have hfalse : genRelativePositions N M false =
      (List.range N).map (fun (i : ℕ) =>
        (List.range N).map
          (fun (j : ℕ) => clipShift ((j : ℤ) - (i : ℤ)) M)) := rfl
  have htrue : genRelativePositions N M true =
      [(List.range N).map
        (fun (j : ℕ) => clipShift ((j : ℤ) - ((N : ℤ) - 1)) M)] := rfl
  rw [hfalse, htrue]
  unfold relEmbed
  rw [getD_map_of_default _ [] [] rfl, getD_map_of_default _ [] [] rfl]
  rw [getD_map_lt
    (fun (i : ℕ) => (List.range N).map
      (fun (j : ℕ) => clipShift ((j : ℤ) - (i : ℤ)) M))
    (List.range N) (N - 1) 0 [] (by simpa using hlt)]
  rw [getD_range N (N - 1) 0 hlt]
  show ((List.range N).map
      (fun (j : ℕ) => clipShift ((j : ℤ) - ((N - 1 : ℕ) : ℤ)) M)).map _ =
    ((List.range N).map
      (fun (j : ℕ) => clipShift ((j : ℤ) - ((N : ℤ) - 1)) M)).map _
  rw [hcast]

/-! Proof-side regrouping of the post-shape pipeline (source lines 298-352)
for the case `mask = None` and equal query/key/value head counts, where the
multi-query expansion is the identity. -/

noncomputable def baseScores (m : Module) (Q K : HeadSeq) : HeadScores :=
  List.zipWith (fun qh kh => qh.map (fun qv => kh.map (dot qv))) (scaledQ m Q) K

noncomputable def posScores (m : Module) (cf : Bool) (kl : ℕ)
    (Q K : HeadSeq) : HeadScores :=
  match relZOf m cf kl with
  | some z => addScores (baseScores m Q K) (relScores (scaledQ m Q) z)
  | none =>
    if m.maxRelativePositions = -2 then
      alibiAdd (alibiSlopes m.headCount) (baseScores m Q K)
    else baseScores m Q K

noncomputable def coreCtx (m : Module) (cf : Bool) (kl : ℕ)
    (Q K V : HeadSeq) : HeadSeq :=
  let attn := softmaxScores (posScores m cf kl Q K)
  let ctx1 := List.zipWith
    (fun ah vh => ah.map (fun row => weightedSum m.dimPerHead row vh)) attn V
  match relZOf m cf kl with
  | some z => addHeadSeq ctx1 (relContext m.dimPerHead attn z)
  | none => ctx1

theorem attnCoreElem_reduce (m : Module) (cf : Bool) (Q K V : HeadSeq)
    (hrk : (scaledQ m Q).length / K.length = 1)
    (hrv : (scaledQ m Q).length / V.length = 1) :
    attnCoreElem m cf Q K V none =
      (applyLinear m.finalLinear (unshape (coreCtx m cf (keyLenOf K) Q K V)),
        softmaxScores (posScores m cf (keyLenOf K) Q K)) := by
  simp only [attnCoreElem, maskedScores, rawScores, coreCtx, posScores,
    baseScores, hrk, hrv, mqExpand_one]

theorem relScores_length (X : HeadSeq) (z : List Seq) :
    (relScores X z).length = X.length := by
  unfold relScores
  rw [List.length_map]

theorem relScores_rows (X : HeadSeq) (z : List Seq) (h : ℕ) :
    ((relScores X z).getD h []).length = (X.getD h []).length := by
  unfold relScores
  rw [getD_map_of_default _ [] [] rfl, idxMap_length]

theorem scaledQ_rows (m : Module) (Q : HeadSeq) (h : ℕ) :
    ((scaledQ m Q).getD h []).length = (Q.getD h []).length := by
  rw [scaledQ_getD, List.length_map]

theorem baseScores_length (m : Module) (Q K : HeadSeq) :
    (baseScores m Q K).length = min Q.length K.length := by
  unfold baseScores
  rw [List.length_zipWith, scaledQ_length]

theorem baseScores_rows (m : Module) (Q K : HeadSeq) (h : ℕ)
    (hh : h < Q.length) (hk : h < K.length) :
    ((baseScores m Q K).getD h []).length = (Q.getD h []).length := by
  unfold baseScores
  rw [getD_zipWith _ _ _ h [] [] []
    (by rw [scaledQ_length]; exact hh) hk]
  rw [List.length_map, scaledQ_rows]

theorem alibiAdd_length (slopes : List ℝ) (S : HeadScores) :
    (alibiAdd slopes S).length = S.length := by
  unfold alibiAdd
  rw [idxMap_length]

theorem alibiAdd_rows (slopes : List ℝ) (S : HeadScores) (h : ℕ)
    (hh : h < S.length) :
    ((alibiAdd slopes S).getD h []).length = (S.getD h []).length := by
  unfold alibiAdd
  rw [idxMap_getD _ _ h [] [] hh, idxMap_length]

theorem posScores_length (m : Module) (cf : Bool) (kl : ℕ) (Q K : HeadSeq)
    (hq : Q.length = m.headCount) (hk : K.length = m.headCount) :
    (posScores m cf kl Q K).length = m.headCount := by
  unfold posScores
  cases relZOf m cf kl with
  | some z =>
    unfold addScores
    rw [List.length_zipWith, baseScores_length, relScores_length,
      scaledQ_length, hq, hk]
    simp
  | none =>
    by_cases hr : m.maxRelativePositions = -2
    · rw [if_pos hr, alibiAdd_length, baseScores_length, hq, hk]
      simp
    · rw [if_neg hr, baseScores_length, hq, hk]
      simp

theorem posScores_rows (m : Module) (cf : Bool) (kl : ℕ) (Q K : HeadSeq)
    (h : ℕ) (hq : Q.length = m.headCount) (hk : K.length = m.headCount)
    (hh : h < m.headCount) :
    ((posScores m cf kl Q K).getD h []).length = (Q.getD h []).length := by
  unfold posScores
  cases relZOf m cf kl with
  | some z =>
    unfold addScores
    rw [getD_zipWith _ _ _ h [] [] []
      (by rw [baseScores_length, hq, hk]; simpa using hh)
      (by rw [relScores_length, scaledQ_length, hq]; exact hh)]
    rw [List.length_zipWith, baseScores_rows m Q K h (hq ▸ hh) (hk ▸ hh),
      relScores_rows, scaledQ_rows]
    simp
  | none =>
    by_cases hr : m.maxRelativePositions = -2
    · rw [if_pos hr,
        alibiAdd_rows _ _ h (by rw [baseScores_length, hq, hk]; simpa using hh),
        baseScores_rows m Q K h (hq ▸ hh) (hk ▸ hh)]
    · rw [if_neg hr, baseScores_rows m Q K h (hq ▸ hh) (hk ▸ hh)]

theorem softmaxScores_rows (S : HeadScores) (h : ℕ) :
    ((softmaxScores S).getD h []).length = (S.getD h []).length := by
  unfold softmaxScores
  rw [getD_map_of_default _ [] [] rfl, List.length_map]

theorem softmaxScores_length (S : HeadScores) :
    (softmaxScores S).length = S.length := by
  unfold softmaxScores
  rw [List.length_map]

theorem relContext_getD (dim : ℕ) (A : HeadScores) (z : List Seq) (h : ℕ) :
    (relContext dim A z).getD h [] =
      idxMap (fun t row => weightedSum dim row (z.getD t [])) (A.getD h []) := by
  unfold relContext
  rw [getD_map_of_default _ [] [] rfl]

theorem relContext_length (dim : ℕ) (A : HeadScores) (z : List Seq) :
    (relContext dim A z).length = A.length := by
  unfold relContext
  rw [List.length_map]

/-- The heart of the cache-equivalence proof: with identical keys and values,
a training-mode core pass whose query stack carries the full `N` positions
and a decode-mode core pass whose query stack carries only the final position
produce the same context row at that final position, head by head, in every
positional mode. -/
theorem coreCtx_last_row (m : Module) (QT QD K V : HeadSeq) (N : ℕ)
    (hN : 0 < N) (hhc : 0 < m.headCount)
    (hQT : QT.length = m.headCount) (hQD : QD.length = m.headCount)
    (hKh : K.length = m.headCount) (hVh : V.length = m.headCount)
    (hQTrows : ∀ h < m.headCount, (QT.getD h []).length = N)
    (hQDrows : ∀ h < m.headCount, (QD.getD h []).length = 1)
    (hQlast : ∀ h < m.headCount,
      (QT.getD h []).getD (N - 1) [] = (QD.getD h []).getD 0 []) :
    ∀ h < m.headCount,
      ((coreCtx m false N QT K V).getD h []).getD (N - 1) [] =
        ((coreCtx m true N QD K V).getD h []).getD 0 [] := by
  intro h hh
  have hN1 : N - 1 < N := Nat.sub_lt hN Nat.one_pos
  -- scaled query rows at the compared positions agree
  have hsq : ((scaledQ m QT).getD h []).getD (N - 1) [] =
      ((scaledQ m QD).getD h []).getD 0 [] := by
    rw [scaledQ_getD, scaledQ_getD,
      getD_map_lt _ _ (N - 1) [] [] (by rw [hQTrows h hh]; exact hN1),
      getD_map_lt _ _ 0 [] [] (by rw [hQDrows h hh]; exact Nat.one_pos),
      hQlast h hh]
  -- base score rows agree
  have hbase : ((baseScores m QT K).getD h []).getD (N - 1) [] =
      ((baseScores m QD K).getD h []).getD 0 [] := by
    unfold baseScores
    rw [scoresMatmul_row _ _ h (N - 1)
        (by rw [scaledQ_length, hQT]; exact hh) (by rw [hKh]; exact hh)
        (by rw [scaledQ_rows, hQTrows h hh]; exact hN1),
      scoresMatmul_row _ _ h 0
        (by rw [scaledQ_length, hQD]; exact hh) (by rw [hKh]; exact hh)
        (by rw [scaledQ_rows, hQDrows h hh]; exact Nat.one_pos),
      hsq]
  -- positional-score rows agree up to a per-row constant shift
  have hpos : ∃ c, ((posScores m true N QD K).getD h []).getD 0 [] =
      (((posScores m false N QT K).getD h []).getD (N - 1) []).map (· + c) := by
    unfold posScores
    cases htab : m.relTable with
    | some table =>
      have hzT : relZOf m false N = some (relEmbed table
          (genRelativePositions N m.maxRelativePositions.toNat false)) := by
        simp [relZOf, htab]
      have hzD : relZOf m true N = some (relEmbed table
          (genRelativePositions N m.maxRelativePositions.toNat true)) := by
        simp [relZOf, htab]
      rw [hzT, hzD]
      refine ⟨0, ?_⟩
      rw [map_add_zero]
      rw [addScores_row _ _ h 0
          (by rw [baseScores_length, hQD, hKh]; simpa using hh)
          (by rw [relScores_length, scaledQ_length, hQD]; exact hh)
          (by rw [baseScores_rows m QD K h (hQD ▸ hh) (hKh ▸ hh),
            hQDrows h hh]; exact Nat.one_pos)
          (by rw [relScores_rows, scaledQ_rows, hQDrows h hh]; exact Nat.one_pos),
        addScores_row _ _ h (N - 1)
          (by rw [baseScores_length, hQT, hKh]; simpa using hh)
          (by rw [relScores_length, scaledQ_length, hQT]; exact hh)
          (by rw [baseScores_rows m QT K h (hQT ▸ hh) (hKh ▸ hh),
            hQTrows h hh]; exact hN1)
          (by rw [relScores_rows, scaledQ_rows, hQTrows h hh]; exact hN1)]
      rw [relScores_row _ _ h 0 (by rw [scaledQ_length, hQD]; exact hh)
          (by rw [scaledQ_rows, hQDrows h hh]; exact Nat.one_pos),
        relScores_row _ _ h (N - 1) (by rw [scaledQ_length, hQT]; exact hh)
          (by rw [scaledQ_rows, hQTrows h hh]; exact hN1)]
      rw [hbase, hsq, relZ_last_row table N _ hN]
    | none =>
      have hzT : relZOf m false N = none := by simp [relZOf, htab]
      have hzD : relZOf m true N = none := by simp [relZOf, htab]
      rw [hzT, hzD]
      by_cases hal : m.maxRelativePositions = -2
      · rw [if_pos hal, if_pos hal]
        rw [alibiAdd_row _ _ h 0
            (by rw [baseScores_length, hQD, hKh]; simpa using hh)
            (by rw [baseScores_rows m QD K h (hQD ▸ hh) (hKh ▸ hh),
              hQDrows h hh]; exact Nat.one_pos),
          alibiAdd_row _ _ h (N - 1)
            (by rw [baseScores_length, hQT, hKh]; simpa using hh)
            (by rw [baseScores_rows m QT K h (hQT ▸ hh) (hKh ▸ hh),
              hQTrows h hh]; exact hN1)]
        rw [hbase]
        refine ⟨(alibiSlopes m.headCount).getD h 0 *
          ((0 : ℝ) - ((N - 1 : ℕ) : ℝ)), ?_⟩
        unfold idxMap
        rw [idxMapFrom_alibi_shift _ (N - 1) 0 0]
        norm_num
      · rw [if_neg hal, if_neg hal]
        exact ⟨0, by rw [map_add_zero, hbase]⟩
  -- attention rows agree exactly
  have hattn : ((softmaxScores (posScores m false N QT K)).getD h []).getD
      (N - 1) [] =
      ((softmaxScores (posScores m true N QD K)).getD h []).getD 0 [] := by
    rw [softmaxScores_getD, softmaxScores_getD]
    rcases hpos with ⟨c, hc'⟩
    rw [hc', softmaxRow_shift]
  -- common length bookkeeping
  have hattnTlen : (softmaxScores (posScores m false N QT K)).length =
      m.headCount := by
    rw [softmaxScores_length, posScores_length m false N QT K hQT hKh]
  have hattnDlen : (softmaxScores (posScores m true N QD K)).length =
      m.headCount := by
    rw [softmaxScores_length, posScores_length m true N QD K hQD hKh]
  have hattnTrows : ((softmaxScores (posScores m false N QT K)).getD h
      []).length = N := by
    rw [softmaxScores_rows, posScores_rows m false N QT K h hQT hKh hh,
      hQTrows h hh]
  have hattnDrows : ((softmaxScores (posScores m true N QD K)).getD h
      []).length = 1 := by
    rw [softmaxScores_rows, posScores_rows m true N QD K h hQD hKh hh,
      hQDrows h hh]
  -- context rows agree
  have hctx1 : ((List.zipWith (fun ah vh => ah.map
        (fun row => weightedSum m.dimPerHead row vh))
        (softmaxScores (posScores m false N QT K)) V).getD h []).getD
        (N - 1) [] =
      ((List.zipWith (fun ah vh => ah.map
        (fun row => weightedSum m.dimPerHead row vh))
        (softmaxScores (posScores m true N QD K)) V).getD h []).getD 0 [] := by
    rw [ctxMatmul_row _ _ _ h (N - 1) (by rw [hattnTlen]; exact hh)
        (by rw [hVh]; exact hh) (by rw [hattnTrows]; exact hN1),
      ctxMatmul_row _ _ _ h 0 (by rw [hattnDlen]; exact hh)
        (by rw [hVh]; exact hh) (by rw [hattnDrows]; exact Nat.one_pos),
      hattn]
  -- assemble through the optional relative-value contribution
  simp only [coreCtx]
  cases htab : m.relTable with
  | some table =>
    have hzT : relZOf m false N = some (relEmbed table
        (genRelativePositions N m.maxRelativePositions.toNat false)) := by
      simp [relZOf, htab]
    have hzD : relZOf m true N = some (relEmbed table
        (genRelativePositions N m.maxRelativePositions.toNat true)) := by
      simp [relZOf, htab]
    rw [hzT, hzD]
    have hctx1Tlen : (List.zipWith (fun ah vh => ah.map
        (fun row => weightedSum m.dimPerHead row vh))
        (softmaxScores (posScores m false N QT K)) V).length = m.headCount := by
      rw [List.length_zipWith, hattnTlen, hVh]
      simp
    have hctx1Dlen : (List.zipWith (fun ah vh => ah.map
        (fun row => weightedSum m.dimPerHead row vh))
        (softmaxScores (posScores m true N QD K)) V).length = m.headCount := by
      rw [List.length_zipWith, hattnDlen, hVh]
      simp
    have hctx1Trows : ((List.zipWith (fun ah vh => ah.map
        (fun row => weightedSum m.dimPerHead row vh))
        (softmaxScores (posScores m false N QT K)) V).getD h []).length = N := by
      rw [getD_zipWith _ _ _ h [] [] [] (by rw [hattnTlen]; exact hh)
        (by rw [hVh]; exact hh), List.length_map, hattnTrows]
    have hctx1Drows : ((List.zipWith (fun ah vh => ah.map
        (fun row => weightedSum m.dimPerHead row vh))
        (softmaxScores (posScores m true N QD K)) V).getD h []).length = 1 := by
      rw [getD_zipWith _ _ _ h [] [] [] (by rw [hattnDlen]; exact hh)
        (by rw [hVh]; exact hh), List.length_map, hattnDrows]
    rw [addHeadSeq_row _ _ h (N - 1) (by rw [hctx1Tlen]; exact hh)
        (by rw [relContext_length, hattnTlen]; exact hh)
        (by rw [hctx1Trows]; exact hN1)
        (by rw [relContext_getD, idxMap_length, hattnTrows]; exact hN1),
      addHeadSeq_row _ _ h 0 (by rw [hctx1Dlen]; exact hh)
        (by rw [relContext_length, hattnDlen]; exact hh)
        (by rw [hctx1Drows]; exact Nat.one_pos)
        (by rw [relContext_getD, idxMap_length, hattnDrows]; exact Nat.one_pos)]
    rw [hctx1]
    rw [relContext_row _ _ _ h (N - 1) (by rw [hattnTlen]; exact hh)
        (by rw [hattnTrows]; exact hN1),
      relContext_row _ _ _ h 0 (by rw [hattnDlen]; exact hh)
        (by rw [hattnDrows]; exact Nat.one_pos)]
    rw [hattn, relZ_last_row table N _ hN]
  | none =>
    have hzT : relZOf m false N = none := by simp [relZOf, htab]
    have hzD : relZOf m true N = none := by simp [relZOf, htab]
    rw [hzT, hzD]
    exact hctx1

theorem coreCtx_length (m : Module) (cf : Bool) (kl : ℕ) (Q K V : HeadSeq)
    (hq : Q.length = m.headCount) (hk : K.length = m.headCount)
    (hv : V.length = m.headCount) :
    (coreCtx m cf kl Q K V).length = m.headCount := by
  simp only [coreCtx]
  cases hz : relZOf m cf kl with
  | some z =>
    unfold addHeadSeq
    rw [List.length_zipWith, List.length_zipWith, softmaxScores_length,
      posScores_length m cf kl Q K hq hk, hv, relContext_length,
      softmaxScores_length, posScores_length m cf kl Q K hq hk]
    simp
  | none =>
    rw [List.length_zipWith, softmaxScores_length,
      posScores_length m cf kl Q K hq hk, hv]
    simp

theorem coreCtx_rows (m : Module) (cf : Bool) (kl : ℕ) (Q K V : HeadSeq)
    (hq : Q.length = m.headCount) (hk : K.length = m.headCount)
    (hv : V.length = m.headCount) (h : ℕ) (hh : h < m.headCount) :
    ((coreCtx m cf kl Q K V).getD h []).length = (Q.getD h []).length := by
  simp only [coreCtx]
  have hattlen : (softmaxScores (posScores m cf kl Q K)).length =
      m.headCount := by
    rw [softmaxScores_length, posScores_length m cf kl Q K hq hk]
  have hattrows : ((softmaxScores (posScores m cf kl Q K)).getD h []).length =
      (Q.getD h []).length := by
    rw [softmaxScores_rows, posScores_rows m cf kl Q K h hq hk hh]
  cases hz : relZOf m cf kl with
  | some z =>
    unfold addHeadSeq
    rw [getD_zipWith _ _ _ h [] [] []
      (by rw [List.length_zipWith, hattlen, hv]; simpa using hh)
      (by rw [relContext_length, hattlen]; exact hh)]
    rw [List.length_zipWith,
      getD_zipWith _ _ _ h [] [] [] (by rw [hattlen]; exact hh)
        (by rw [hv]; exact hh),
      List.length_map, hattrows, relContext_getD, idxMap_length, hattrows]
    simp
  | none =>
    rw [getD_zipWith _ _ _ h [] [] [] (by rw [hattlen]; exact hh)
      (by rw [hv]; exact hh), List.length_map, hattrows]

theorem unshape_length (C : HeadSeq) :
    (unshape C).length = (C.headD []).length := by
  unfold unshape
  rw [List.length_map, List.length_range]

theorem unshape_getD (C : HeadSeq) (R i : ℕ) (hR : (C.headD []).length = R)
    (hi : i < R) :
    (unshape C).getD i [] = (C.map (fun hs => hs.getD i [])).flatten := by
  unfold unshape
  rw [hR, getD_map_lt _ _ i 0 [] (by simpa using hi), getD_range R i 0 hi]

theorem applyLinear_getD (L : LinearLayer) (s : Seq) (i : ℕ)
    (hi : i < s.length) :
    (applyLinear L s).getD i [] =
      addVecP (matVec L.weight (s.getD i [])) L.bias := by
  unfold applyLinear
  rw [getD_map_lt _ _ i [] [] hi]

theorem maybeRot_getD (m : Module) (s₀ : ℕ) (A : HeadSeq) (h : ℕ) :
    (maybeRot m s₀ A).getD h [] =
      if m.maxRelativePositions = -1
        then idxMap (fun p v => rotateVec m.dimPerHead (s₀ + p) v) (A.getD h [])
        else A.getD h [] := by
  unfold maybeRot applyRotary
  by_cases hr : m.maxRelativePositions = -1
  · rw [if_pos hr, if_pos hr, getD_map_of_default _ [] [] rfl]
  · rw [if_neg hr, if_neg hr]

theorem maybeRot_rows (m : Module) (s₀ : ℕ) (A : HeadSeq) (h : ℕ) :
    ((maybeRot m s₀ A).getD h []).length = (A.getD h []).length := by
  rw [maybeRot_getD]
  by_cases hr : m.maxRelativePositions = -1
  · rw [if_pos hr, idxMap_length]
  · rw [if_neg hr]

theorem projShape_rows (m : Module) (L : LinearLayer) (y : Seq) (hy : y ≠ [])
    (h : ℕ) (hh : h < projLen L / m.dimPerHead) :
    ((projShape m L y).getD h []).length = y.length := by
  rw [projShape_eq m L y hy, getD_map_lt _ _ h 0 [] (by simpa using hh),
    List.length_map, applyLinear_length]

theorem projShape_entry (m : Module) (L : LinearLayer) (y : Seq) (hy : y ≠ [])
    (h : ℕ) (hh : h < projLen L / m.dimPerHead) (i : ℕ) (hi : i < y.length) :
    ((projShape m L y).getD h []).getD i [] =
      vslice (addVecP (matVec L.weight (y.getD i [])) L.bias)
        (h * m.dimPerHead) m.dimPerHead := by
  rw [projShape_eq m L y hy, getD_map_lt _ _ h 0 [] (by simpa using hh),
    getD_map_lt _ _ i [] [] (by rw [applyLinear_length]; exact hi),
    applyLinear_getD L y i hi, getD_range _ h 0 hh]

/-- Appending the next position's (rotated) shaped projection to the shaped
projection of a nonempty prefix gives the shaped projection of the extended
prefix. -/
theorem maybeRot_cat (m : Module) (L : LinearLayer) (y : Seq) (w : Vec)
    (hy : y ≠ []) :
    List.zipWith (· ++ ·) (maybeRot m 0 (projShape m L y))
        (maybeRot m y.length (projShape m L [w])) =
      maybeRot m 0 (projShape m L (y ++ [w])) := by
  unfold maybeRot
  by_cases hr : m.maxRelativePositions = -1
  · rw [if_pos hr, if_pos hr, if_pos hr,
      projShape_append m L y w hy,
      applyRotary_zipWith_append m.dimPerHead y.length _ _
        (projShape_head_lengths m L y hy)]
  · rw [if_neg hr, if_neg hr, if_neg hr, projShape_append m L y w hy]

/-- Training forward reduces to the per-element core on the rotated shaped
projections of the full sequence. -/
theorem trainingOutput_eq (m : Module) (x : Seq) :
    trainingOutput m x =
      (attnCoreElem m false (maybeRot m 0 (projShape m m.linearQuery x))
        (maybeRot m 0 (projShape m m.linearKeys x))
        (projShape m m.linearValues x) none).1 := by
  unfold trainingOutput forward projectStage maybeRot
  by_cases hr : m.maxRelativePositions = -1 <;> simp [hr]

/-- A decode step on a populated singleton-batch cache reduces to the
per-element core on the concatenated keys/values. -/
theorem decode_forward_output (m : Module) (Kc Vc : HeadSeq) (w : Vec) (t : ℕ)
    (ha : m.attnType = .selfAttn)
    (hnk : numel [Kc] ≠ 0) (hnv : numel [Vc] ≠ 0) :
    (match forward m ⟨true, [Kc], [Vc]⟩ [[w]] [[w]] [[w]] none t with
      | .ok r => r.1.headD []
      | .error _ => []) =
      (attnCoreElem m true
        (maybeRot m t (projShape m m.linearQuery [w]))
        (List.zipWith (· ++ ·) Kc (maybeRot m t (projShape m m.linearKeys [w])))
        (List.zipWith (· ++ ·) Vc (projShape m m.linearValues [w]))
        none).1 := by
  unfold forward projectStage maybeRot catLen
  by_cases hr : m.maxRelativePositions = -1 <;> simp [ha, hr, hnk, hnv]

/-- The first decode step (empty cache) reduces to the per-element core on
that position's projections alone. -/
theorem decode_forward_output_empty (m : Module) (w : Vec) (t : ℕ)
    (ha : m.attnType = .selfAttn) :
    (match forward m ⟨true, [], []⟩ [[w]] [[w]] [[w]] none t with
      | .ok r => r.1.headD []
      | .error _ => []) =
      (attnCoreElem m true (maybeRot m t (projShape m m.linearQuery [w]))
        (maybeRot m t (projShape m m.linearKeys [w]))
        (projShape m m.linearValues [w]) none).1 := by
  unfold forward projectStage maybeRot
  by_cases hr : m.maxRelativePositions = -1 <;> simp [ha, hr, numel]

/-- C1 (amended): for every module configuration (any positional mode —
none, relative, rotary or ALiBi) and every nonempty input sequence, the
context vector that the training-style full-sequence forward (cache
disabled, no mask, dropout 0) produces at the final position `N-1` equals the
context vector returned by the `N`-th decode step (cache enabled,
`attn_type = "self"`, length-1 steps with `step = t`) exactly.  The
hypotheses record the source's standing shape invariants: square
`model_dim × model_dim` projections with `model_dim = head_count ·
dim_per_head`, an even `dim_per_head` in rotary mode, and sequences within
the rotary table. -/
theorem cache_equivalence_last_position (m : Module) (x : Seq)
    (hx : x ≠ []) (hlen4096 : x.length ≤ 4096)
    (ha : m.attnType = .selfAttn)
    (hhc : 0 < m.headCount) (hdph : 0 < m.dimPerHead)
    (heven : m.maxRelativePositions = -1 → m.dimPerHead % 2 = 0)
    (hQ : projLen m.linearQuery = m.headCount * m.dimPerHead)
    (hK : projLen m.linearKeys = m.headCount * m.dimPerHead)
    (hV : projLen m.linearValues = m.headCount * m.dimPerHead) :
    (trainingOutput m x).getD (x.length - 1) [] =
      (decodeStepOutput m x (x.length - 1)).getD 0 [] := by
  have hN : 0 < x.length := List.length_pos.mpr hx
  have hN1 : x.length - 1 < x.length := Nat.sub_lt hN Nat.one_pos
  have hKle : m.dimPerHead ≤ projLen m.linearKeys := by
    rw [hK]
    calc m.dimPerHead = 1 * m.dimPerHead := by ring
      _ ≤ m.headCount * m.dimPerHead := Nat.mul_le_mul_right _ hhc
  have hVle : m.dimPerHead ≤ projLen m.linearValues := by
    rw [hV]
    calc m.dimPerHead = 1 * m.dimPerHead := by ring
      _ ≤ m.headCount * m.dimPerHead := Nat.mul_le_mul_right _ hhc
  have hHQ : projLen m.linearQuery / m.dimPerHead = m.headCount := by
    rw [hQ, Nat.mul_div_cancel _ hdph]
  have hHK : projLen m.linearKeys / m.dimPerHead = m.headCount := by
    rw [hK, Nat.mul_div_cancel _ hdph]
  have hHV : projLen m.linearValues / m.dimPerHead = m.headCount := by
    rw [hV, Nat.mul_div_cancel _ hdph]
  -- decode-side reduction: the N-th step sees the full keys and values
  have hdec : decodeStepOutput m x (x.length - 1) =
      (attnCoreElem m true
        (maybeRot m (x.length - 1)
          (projShape m m.linearQuery [x.getD (x.length - 1) []]))
        (maybeRot m 0 (projShape m m.linearKeys x))
        (projShape m m.linearValues x) none).1 := by
    by_cases hone : x.length = 1
    · have ht0 : x.length - 1 = 0 := by omega
      have hx1 : x = [x.getD 0 []] := by
        cases x with
        | nil => exact absurd rfl hx
        | cons a tl =>
          cases tl with
          | nil => rfl
          | cons b tl2 => simp at hone
      rw [ht0]
      unfold decodeStepOutput
      have hc0 : decodeCacheUpto m x 0 = ⟨true, [], []⟩ := rfl
      rw [hc0, decode_forward_output_empty m (x.getD 0 []) 0 ha, ← hx1]
    · have ht1 : 1 ≤ x.length - 1 := by omega
      have htle : x.length - 1 ≤ x.length := by omega
      have htake_ne : x.take (x.length - 1) ≠ [] := by
        intro hnil
        have hlen0 := congrArg List.length hnil
        rw [List.length_take] at hlen0
        simp only [List.length_nil] at hlen0
        omega
      have htklen : (x.take (x.length - 1)).length = x.length - 1 := by
        rw [List.length_take]
        omega
      unfold decodeStepOutput
      rw [decodeCacheUpto_spec m x ha hdph heven hKle hVle (x.length - 1) ht1 htle,
        decode_forward_output m _ _ (x.getD (x.length - 1) []) (x.length - 1) ha
          (numel_maybeRot_pos m m.linearKeys _ 0 htake_ne hdph heven hKle)
          (numel_proj_pos m m.linearValues _ htake_ne hdph hVle)]
      rw [show maybeRot m (x.length - 1)
            (projShape m m.linearKeys [x.getD (x.length - 1) []]) =
          maybeRot m (x.take (x.length - 1)).length
            (projShape m m.linearKeys [x.getD (x.length - 1) []]) from by
        rw [htklen]]
      rw [maybeRot_cat m m.linearKeys _ _ htake_ne,
        ← projShape_append m m.linearValues _ _ htake_ne]
      have hfull : x.take (x.length - 1) ++ [x.getD (x.length - 1) []] = x := by
        rw [← take_succ_getD x (x.length - 1) [] hN1,
          show x.length - 1 + 1 = x.length from by omega, List.take_length]
      rw [hfull]
  rw [trainingOutput_eq, hdec]
  -- head-count and row-count bookkeeping for the shaped tensors
  have hQTlen : (maybeRot m 0 (projShape m m.linearQuery x)).length =
      m.headCount := by
    rw [maybeRot_length, projShape_length m m.linearQuery x hx, hHQ]
  have hKTlen : (maybeRot m 0 (projShape m m.linearKeys x)).length =
      m.headCount := by
    rw [maybeRot_length, projShape_length m m.linearKeys x hx, hHK]
  have hVTlen : (projShape m m.linearValues x).length = m.headCount := by
    rw [projShape_length m m.linearValues x hx, hHV]
  have hQDlen : (maybeRot m (x.length - 1)
      (projShape m m.linearQuery [x.getD (x.length - 1) []])).length =
      m.headCount := by
    rw [maybeRot_length, projShape_length m m.linearQuery _ (by simp), hHQ]
  have hQTrows : ∀ h < m.headCount,
      ((maybeRot m 0 (projShape m m.linearQuery x)).getD h []).length =
        x.length := by
    intro h hh
    rw [maybeRot_rows, projShape_rows m m.linearQuery x hx h (hHQ ▸ hh)]
  have hQDrows : ∀ h < m.headCount,
      ((maybeRot m (x.length - 1)
        (projShape m m.linearQuery [x.getD (x.length - 1) []])).getD h
          []).length = 1 := by
    intro h hh
    rw [maybeRot_rows,
      projShape_rows m m.linearQuery _ (by simp) h (hHQ ▸ hh)]
    rfl
  have hQlast : ∀ h < m.headCount,
      ((maybeRot m 0 (projShape m m.linearQuery x)).getD h []).getD
          (x.length - 1) [] =
        ((maybeRot m (x.length - 1)
          (projShape m m.linearQuery [x.getD (x.length - 1) []])).getD h
            []).getD 0 [] := by
    intro h hh
    rw [maybeRot_getD, maybeRot_getD]
    have hPT : ((projShape m m.linearQuery x).getD h []).getD
          (x.length - 1) [] =
        ((projShape m m.linearQuery [x.getD (x.length - 1) []]).getD h
          []).getD 0 [] := by
      rw [projShape_entry m m.linearQuery x hx h (hHQ ▸ hh) (x.length - 1) hN1,
        projShape_entry m m.linearQuery [x.getD (x.length - 1) []] (by simp) h
          (hHQ ▸ hh) 0 (by simp)]
      rfl
    by_cases hr : m.maxRelativePositions = -1
    · rw [if_pos hr, if_pos hr,
        idxMap_getD _ _ (x.length - 1) [] []
          (by rw [projShape_rows m m.linearQuery x hx h (hHQ ▸ hh)]; exact hN1),
        idxMap_getD _ _ 0 [] []
          (by rw [projShape_rows m m.linearQuery _ (by simp) h (hHQ ▸ hh)]
              exact Nat.one_pos),
        hPT, Nat.zero_add, Nat.add_zero]
    · rw [if_neg hr, if_neg hr, hPT]
  -- reduce both cores: the multi-query ratio is 1 on both sides
  have hratkT : (scaledQ m (maybeRot m 0 (projShape m m.linearQuery x))).length /
      (maybeRot m 0 (projShape m m.linearKeys x)).length = 1 := by
    rw [scaledQ_length, hQTlen, hKTlen, Nat.div_self hhc]
  have hratvT : (scaledQ m (maybeRot m 0 (projShape m m.linearQuery x))).length /
      (projShape m m.linearValues x).length = 1 := by
    rw [scaledQ_length, hQTlen, hVTlen, Nat.div_self hhc]
  have hratkD : (scaledQ m (maybeRot m (x.length - 1)
      (projShape m m.linearQuery [x.getD (x.length - 1) []]))).length /
      (maybeRot m 0 (projShape m m.linearKeys x)).length = 1 := by
    rw [scaledQ_length, hQDlen, hKTlen, Nat.div_self hhc]
  have hratvD : (scaledQ m (maybeRot m (x.length - 1)
      (projShape m m.linearQuery [x.getD (x.length - 1) []]))).length /
      (projShape m m.linearValues x).length = 1 := by
    rw [scaledQ_length, hQDlen, hVTlen, Nat.div_self hhc]
  rw [attnCoreElem_reduce m false _ _ _ hratkT hratvT,
    attnCoreElem_reduce m true _ _ _ hratkD hratvD]
  have hkl : keyLenOf (maybeRot m 0 (projShape m m.linearKeys x)) =
      x.length := by
    unfold keyLenOf
    rw [headD_eq_getD, maybeRot_rows,
      projShape_rows m m.linearKeys x hx 0 (by rw [hHK]; exact hhc)]
  rw [hkl]
  -- final row comparison
  have hcore := coreCtx_last_row m
    (maybeRot m 0 (projShape m m.linearQuery x))
    (maybeRot m (x.length - 1)
      (projShape m m.linearQuery [x.getD (x.length - 1) []]))
    (maybeRot m 0 (projShape m m.linearKeys x))
    (projShape m m.linearValues x) x.length hN hhc hQTlen hQDlen hKTlen hVTlen
    hQTrows hQDrows hQlast
  have hclT : (coreCtx m false x.length
      (maybeRot m 0 (projShape m m.linearQuery x))
      (maybeRot m 0 (projShape m m.linearKeys x))
      (projShape m m.linearValues x)).length = m.headCount :=
    coreCtx_length m false x.length _ _ _ hQTlen hKTlen hVTlen
  have hclD : (coreCtx m true x.length
      (maybeRot m (x.length - 1)
        (projShape m m.linearQuery [x.getD (x.length - 1) []]))
      (maybeRot m 0 (projShape m m.linearKeys x))
      (projShape m m.linearValues x)).length = m.headCount :=
    coreCtx_length m true x.length _ _ _ hQDlen hKTlen hVTlen
  have hrow0T : ((coreCtx m false x.length
      (maybeRot m 0 (projShape m m.linearQuery x))
      (maybeRot m 0 (projShape m m.linearKeys x))
      (projShape m m.linearValues x)).headD []).length = x.length := by
    rw [headD_eq_getD,
      coreCtx_rows m false x.length _ _ _ hQTlen hKTlen hVTlen 0 hhc,
      hQTrows 0 hhc]
  have hrow0D : ((coreCtx m true x.length
      (maybeRot m (x.length - 1)
        (projShape m m.linearQuery [x.getD (x.length - 1) []]))
      (maybeRot m 0 (projShape m m.linearKeys x))
      (projShape m m.linearValues x)).headD []).length = 1 := by
    rw [headD_eq_getD,
      coreCtx_rows m true x.length _ _ _ hQDlen hKTlen hVTlen 0 hhc,
      hQDrows 0 hhc]
  have hflat : (coreCtx m false x.length
        (maybeRot m 0 (projShape m m.linearQuery x))
        (maybeRot m 0 (projShape m m.linearKeys x))
        (projShape m m.linearValues x)).map
        (fun hs => hs.getD (x.length - 1) []) =
      (coreCtx m true x.length
        (maybeRot m (x.length - 1)
          (projShape m m.linearQuery [x.getD (x.length - 1) []]))
        (maybeRot m 0 (projShape m m.linearKeys x))
        (projShape m m.linearValues x)).map (fun hs => hs.getD 0 []) := by
    apply map_eq_of_getD _ _ _ _ []
    · rw [hclT, hclD]
    · intro i hi
      exact hcore i (by rw [hclT] at hi; exact hi)
  rw [applyLinear_getD _ _ (x.length - 1)
      (by rw [unshape_length, hrow0T]; exact hN1),
    applyLinear_getD _ _ 0 (by rw [unshape_length, hrow0D]; exact Nat.one_pos),
    unshape_getD _ x.length (x.length - 1) hrow0T hN1,
    unshape_getD _ 1 0 hrow0D Nat.one_pos, hflat]

/-- Witness for C1 at a concrete one-position sequence. -/
theorem cache_equivalence_last_position_witness :
    (([[(1 : ℝ)]] : Seq) ≠ [] ∧ ([[(1 : ℝ)]] : Seq).length ≤ 4096 ∧
        mW.attnType = AttnKind.selfAttn ∧ 0 < mW.headCount ∧
        0 < mW.dimPerHead ∧
        projLen mW.linearQuery = mW.headCount * mW.dimPerHead) ∧
      (trainingOutput mW [[1]]).getD (([[(1 : ℝ)]] : Seq).length - 1) [] =
        (decodeStepOutput mW [[1]] (([[(1 : ℝ)]] : Seq).length - 1)).getD 0 [] :=
  ⟨⟨by simp, by simp, rfl, by decide, by decide, by decide⟩,
    cache_equivalence_last_position mW [[1]] (by simp) (by simp) rfl
      (by decide) (by decide) (fun h => absurd h (by decide))
      (by decide) (by decide) (by decide)⟩

set_option maxHeartbeats 2000000 in
theorem trainingOutput_mRel_eval :
    trainingOutput mRel [[1], [3]] = [[2], [2]] := by
  norm_num [trainingOutput, forward, projectStage, projShape, applyLinear,
    matVec, addVecP, dot, shape, headSplit, vslice, mRel, attnCoreElem,
    maskedScores, rawScores, scaledQ, relZOf, keyLenOf, mqExpand,
    softmaxScores, softmaxRow, weightedSum, scaleVec, vecZero, unshape,
    List.range_succ, Real.sqrt_one, Real.exp_zero, addScores, relScores,
    relEmbed, genRelativePositions, clipShift, relContext, addHeadSeq,
    idxMap, idxMapFrom, Int.toNat_ofNat]
  norm_num [show ((2 : ℤ).toNat) = 2 from rfl, show ((1 : ℤ).toNat) = 1 from rfl,
    show ((0 : ℤ).toNat) = 0 from rfl, Real.exp_zero]

set_option maxHeartbeats 2000000 in
theorem decodeStep0_mRel_eval :
    decodeStepOutput mRel [[1], [3]] 0 = [[1]] := by
  norm_num [decodeStepOutput, decodeCacheUpto, forward, projectStage,
    projShape, applyLinear, matVec, addVecP, dot, shape, headSplit, vslice,
    mRel, attnCoreElem, maskedScores, rawScores, scaledQ, relZOf, keyLenOf,
    mqExpand, softmaxScores, softmaxRow, weightedSum, scaleVec, vecZero,
    unshape, List.range_succ, Real.sqrt_one, Real.exp_zero, addScores,
    relScores, relEmbed, genRelativePositions, clipShift, relContext,
    addHeadSeq, idxMap, idxMapFrom, numel, Int.toNat_ofNat]

/-- C1 counterexample: the claim as stated (equality at *every* position `t`)
fails.  With no mask, position 0 of the training-mode full-sequence run
attends to both keys, while decode step 0 has only the first key in its
cache: in relative mode with zero query weights the training context at
position 0 averages both values (giving 2) while decode step 0 returns the
first value (giving 1). -/
theorem cache_equivalence_fails_at_position_zero :
    (trainingOutput mRel [[1], [3]]).getD 0 [] ≠
      (decodeStepOutput mRel [[1], [3]] 0).getD 0 [] := by
  rw [trainingOutput_mRel_eval, decodeStep0_mRel_eval]
  norm_num

/-- Witness for C6: the single attention row of a concrete call sums to 1. -/
theorem attn_rows_sum_one_witness :
    (forward mW ⟨false, [], []⟩ [[[0]]] [[[0]]] [[[0]]] none 0 =
        .ok ([[[0]]], [[[[1]]]], ⟨false, [], []⟩) ∧
      ((([[[[(1 : ℝ)]]]].getD 0 []).getD 0 []).getD 0 []) ≠ [] ∧
      rowNotFullyMasked none 0 0 0) ∧
      (((([[[[(1 : ℝ)]]]].getD 0 []).getD 0 []).getD 0 [])).sum = 1 :=
  ⟨⟨forward_mW_eval, by simp, trivial⟩,
    attn_rows_sum_one mW ⟨false, [], []⟩ [[[0]]] [[[0]]] [[[0]]] none 0
      [[[0]]] [[[[1]]]] ⟨false, [], []⟩ 0 0 0 forward_mW_eval (by simp) trivial⟩

end MHA



